import Mathlib

/-!
Verification of the asset-graph core of the parcel bundler.

The development embeds, as executable Lean definitions, the parts of the
source that the verified properties speak about:

* the `MutableAsset` flag setters of `src/packages/core/core/src/public/Asset.js`
  (lines 309-323);
* the generic typed multigraph `Graph` of the same file (lines 548-1147):
  `bfs`, `dfs`, `removeEdge`, `removeNode`, `isOrphanedNode`;
* the symbol-propagation pass of `src/unnamed/part_001`
  (`propagateSymbols`, `propagateSymbolsDown`, `propagateSymbolsUp`).

JavaScript `Set` and `Map` values are modelled as Lean lists that keep the
JS insertion order (`Set.add` appends when absent, `Map.set` keeps the
position of an existing key).  Machine integers are `Nat` (all ids and
flag words in the source are small non-negative integers).  Code that
throws (`nullthrows`, `invariant`, `assert`) is modelled with `Option`
where the claims depend on it, and as a harmless total default otherwise;
each such spot is noted in a comment.
-/

namespace Parcel

variable {Ctx : Type}

/-! ## MutableAsset flag setters (Asset.js 309-323)

`AssetFlags.IS_BUNDLE_SPLITTABLE` and `AssetFlags.SIDE_EFFECTS` are opaque
non-zero bit masks provided by `@parcel/rust`; they are parameters here. -/

/-- Asset.js 313-315: `set isBundleSplittable(v) { this.#asset.value.flags |= AssetFlags.IS_BUNDLE_SPLITTABLE; }`.
The assigned boolean is ignored; the bit is OR-ed in unconditionally. -/
def setIsBundleSplittable (IS_BUNDLE_SPLITTABLE : Nat) (flags : Nat) (_v : Bool) : Nat :=
  flags ||| IS_BUNDLE_SPLITTABLE

/-- Asset.js 309-311: `get isBundleSplittable() { return Boolean(flags & AssetFlags.IS_BUNDLE_SPLITTABLE); }` -/
def getIsBundleSplittable (IS_BUNDLE_SPLITTABLE : Nat) (flags : Nat) : Bool :=
  flags &&& IS_BUNDLE_SPLITTABLE != 0

/-- Asset.js 321-323: `set sideEffects(v) { this.#asset.value.flags |= AssetFlags.SIDE_EFFECTS; }` -/
def setSideEffects (SIDE_EFFECTS : Nat) (flags : Nat) (_v : Bool) : Nat :=
  flags ||| SIDE_EFFECTS

/-- Asset.js 317-319 -/
def getSideEffects (SIDE_EFFECTS : Nat) (flags : Nat) : Bool :=
  flags &&& SIDE_EFFECTS != 0

/-! ## The generic Graph (Asset.js 548-1147)

`Graph` keeps a node map `NodeId -> TNode`, an adjacency list of typed
edges and an optional root.  For the traversal/removal claims only node
*presence* matters, so nodes are the list of live `NodeId`s (in insertion
order) and edges are `(from, to, type)` triples in insertion order, at
most one per triple (`AdjacencyList.addEdge` is idempotent). -/

structure Graph where
  nodes : List Nat
  edges : List (Nat × Nat × Nat)
  rootNodeId : Option Nat
deriving DecidableEq, Repr

/-- Asset.js 629-631 -/
def Graph.hasNode (g : Graph) (n : Nat) : Bool :=
  g.nodes.contains n

/-- Asset.js 659-666 (`hasEdge` delegates to the adjacency list). -/
def Graph.hasEdgeB (g : Graph) (f t ty : Nat) : Bool :=
  g.edges.contains (f, t, ty)

/-- Edge-type argument of the neighbour queries: a single type or the
`ALL_EDGE_TYPES` sentinel (Asset.js 573-574). -/
inductive TypeSpec where
  | all
  | single (ty : Nat)
deriving DecidableEq, Repr

def TypeSpec.matches : TypeSpec → Nat → Bool
  | .all, _ => true
  | .single t, ty => ty == t

/-- Keep the first occurrence of every element — the iteration order of a
JS `Set` built from the list. -/
def firstOcc : List Nat → List Nat
  | [] => []
  | x :: xs => x :: (firstOcc xs).filter (· ≠ x)

/-- Asset.js 702-708 with AdjacencyList modelled from the spec:
`getNodesConnectedFrom` iterates the outbound list of `nodeId` in
insertion order, filtered by the type spec, de-duplicated. -/
def Graph.connectedFrom (g : Graph) (n : Nat) (ts : TypeSpec) : List Nat :=
  firstOcc ((g.edges.filter (fun e => e.1 == n && ts.matches e.2.2)).map (·.2.1))

/-- Asset.js 668-674, inbound counterpart. -/
def Graph.connectedTo (g : Graph) (n : Nat) (ts : TypeSpec) : List Nat :=
  firstOcc ((g.edges.filter (fun e => e.2.1 == n && ts.matches e.2.2)).map (·.1))

/-- AdjacencyList `getInboundEdgesByType(node)` (spec §4.1): every inbound
edge of `n`, one entry per edge. -/
def Graph.inboundEdges (g : Graph) (n : Nat) : List (Nat × Nat × Nat) :=
  g.edges.filter (fun e => e.2.1 == n)

/-- AdjacencyList `getOutboundEdgesByType(node)` (spec §4.1). -/
def Graph.outboundEdges (g : Graph) (n : Nat) : List (Nat × Nat × Nat) :=
  g.edges.filter (fun e => e.1 == n)

/-! ### bfs (Asset.js 1026-1051)

The loop is embedded verbatim, including the visit call
`let stop = visit(rootNodeId);` on line 1037, which passes the *root*
node id to the visitor on every iteration instead of the freshly
dequeued `node`.  The queue grows by the unvisited type-1 children of
the dequeued node. -/

def Graph.bfsLoop (g : Graph) (visit : Nat → Bool) (root : Nat) :
    Nat → List Nat → List Nat → Option Nat
  | 0, _, _ => none
  | _ + 1, [], _ => none
  | fuel + 1, node :: queue, visited =>
    -- line 1037: `let stop = visit(rootNodeId);`  (not `visit(node)`)
    if visit root then some node
    else
      let step := (g.connectedFrom node (.single 1)).foldl
        (fun (acc : List Nat × List Nat) child =>
          if acc.2.contains child then acc
          else (acc.1 ++ [child], acc.2 ++ [child]))
        (queue, visited)
      g.bfsLoop visit root fuel step.1 step.2

/-- Asset.js 1026-1051.  `none` models the `nullthrows` on a missing
root; otherwise the result is the bfs return value. -/
def Graph.bfs (g : Graph) (visit : Nat → Bool) : Option (Option Nat) :=
  match g.rootNodeId with
  | none => none
  | some root => some (g.bfsLoop visit root (g.nodes.length + 1) [root] [root])

/-- Modelled from the spec: `bfs(visit) -> NodeId?` as claim C1 reads it —
a queue-based forward traversal from the root that invokes the visitor on
each *dequeued* node and returns the node at which the visitor first
returned true. -/
def Graph.bfsPerClaim (g : Graph) (visit : Nat → Bool) : Option (Option Nat) :=
  match g.rootNodeId with
  | none => none
  | some root => some (loop (g.nodes.length + 1) [root] [root])
where
  loop : Nat → List Nat → List Nat → Option Nat
  | 0, _, _ => none
  | _ + 1, [], _ => none
  | fuel + 1, node :: queue, visited =>
    if visit node then some node
    else
      let step := (g.connectedFrom node (.single 1)).foldl
        (fun (acc : List Nat × List Nat) child =>
          if acc.2.contains child then acc
          else (acc.1 ++ [child], acc.2 ++ [child]))
        (queue, visited)
      loop fuel step.1 step.2

/-- Two-node graph `0 → 1` with root `0`; the visitor recognises node 1. -/
def bfsBugGraph : Graph := { nodes := [0, 1], edges := [(0, 1, 1)], rootNodeId := some 0 }

def bfsBugVisit (n : Nat) : Bool := n == 1

/-! ### dfs (Asset.js 940-1024)

The traversal is embedded with an event trace so that theorems can speak
about which callbacks were invoked, in which order, and against which
graph state.  A visitor callback receives the node, the current context
and the current graph; it returns an optional new context (returning
`none` models the JS callback returning `undefined`, which keeps the old
context), whether it called `actions.stop()` / `actions.skipChildren()`,
and the graph after the callback (visitors may mutate the graph, which
`dfs` observes live through `hasNode` and `getChildren`). -/

structure VisitStep (Ctx : Type) where
  newContext : Option Ctx
  stop : Bool
  skip : Bool
  graph : Graph

/-- `visit` may be a single enter function or an `{enter?, exit?}` object
(Asset.js 972, 1001-1002). -/
structure Visitor (Ctx : Type) where
  enter : Option (Nat → Option Ctx → Graph → VisitStep Ctx)
  exit : Option (Nat → Option Ctx → Graph → VisitStep Ctx)

/-- One visitor invocation: which callback, on which node, the graph at
the moment of the call, the context after applying the returned value,
and the actions the callback invoked. -/
structure DfsEvent (Ctx : Type) where
  isExit : Bool
  node : Nat
  graphAtCall : Graph
  ctxAfter : Option Ctx
  stop : Bool
  skip : Bool
deriving DecidableEq, Repr

/-- The mutable state of one `dfs` run: the (visitor-mutable) graph, the
`visited` set, the `stopped` and `skipped` action flags, plus the event
trace. -/
structure DfsState (Ctx : Type) where
  graph : Graph
  visited : List Nat
  stopped : Bool
  skipped : Bool
  trace : List (DfsEvent Ctx)
deriving DecidableEq, Repr

/-- JS `Set.add`: append if absent. -/
def addOnce (l : List Nat) (n : Nat) : List Nat :=
  if l.contains n then l else l ++ [n]

/-- Run one visitor callback and fold its effects into the state
(Asset.js 973-979 and 1007-1012: apply the returned context if it is not
`undefined`; `actions` can only set the flags). -/
def applyStep (isExit : Bool) (nodeId : Nat) (step : VisitStep Ctx)
    (ctx : Option Ctx) (st : DfsState Ctx) : Option Ctx × DfsState Ctx :=
  let ctx' := match step.newContext with | none => ctx | some c => some c
  (ctx', { st with
    graph := step.graph
    stopped := st.stopped || step.stop
    skipped := st.skipped || step.skip
    trace := st.trace ++ [⟨isExit, nodeId, st.graph, ctx', step.stop, step.skip⟩] })

mutual

/-- Asset.js 967-987, the head of the recursive `walk` closure: the
`hasNode` guard, `visited.add`, the `skipped` reset, the enter callback
and its two early returns.  The rest of the body (child loop, exit
callback, final returns) is `dfsWalkRest`.  The fuel argument bounds the
recursion depth; the wrapper passes enough for any traversal of the
starting graph.  The returned `Option Ctx` is the JS return value
(`none` = `undefined`). -/
def dfsWalk (vis : Visitor Ctx) (getChildren : Graph → Nat → List Nat) :
    Nat → Nat → Option Ctx → DfsState Ctx → Option Ctx × DfsState Ctx
  | 0, _, _, st => (none, st)
  | fuel + 1, nodeId, ctx, st =>
    -- line 968: `if (!this.hasNode(nodeId)) return;`
    if ¬ st.graph.hasNode nodeId then (none, st)
    else
      -- lines 969-971: `visited.add(nodeId); skipped = false;`
      let st := { st with visited := addOnce st.visited nodeId, skipped := false }
      -- lines 972-979: enter callback
      let r1 :=
        match vis.enter with
        | none => (ctx, st)
        | some enter => applyStep false nodeId (enter nodeId ctx st.graph) ctx st
      -- lines 981-983: `if (skipped) return;`
      if r1.2.skipped then (none, r1.2)
      -- lines 985-987: `if (stopped) return context;`
      else if r1.2.stopped then (r1.1, r1.2)
      else dfsWalkRest vis getChildren fuel nodeId r1.1 r1.2
termination_by fuel _ _ _ => (fuel, 1, 0)

/-- Asset.js 989-1021, the tail of `walk`: the child loop, the early
return when a child stopped the traversal, the guarded exit callback and
the final returns. -/
def dfsWalkRest (vis : Visitor Ctx) (getChildren : Graph → Nat → List Nat) :
    Nat → Nat → Option Ctx → DfsState Ctx → Option Ctx × DfsState Ctx
  | fuel, nodeId, ctx, st =>
    -- lines 989-995: child loop over `getChildren(nodeId)` (live graph)
    let r2 := dfsWalkChildren vis getChildren fuel (getChildren st.graph nodeId) ctx st
    -- lines 996-998: `if (stopped) return result;`
    if r2.2.2 then (r2.1, r2.2.1)
    else
      -- lines 1001-1012: exit callback, guarded by `this.hasNode(nodeId)`
      let r3 :=
        match vis.exit with
        | none => (ctx, r2.2.1)
        | some exitF =>
          if r2.2.1.graph.hasNode nodeId then
            applyStep true nodeId (exitF nodeId ctx r2.2.1.graph) ctx r2.2.1
          else (ctx, r2.2.1)
      -- lines 1014-1016: `if (skipped) return;`
      if r3.2.skipped then (none, r3.2)
      -- lines 1018-1020: `if (stopped) return context;` else implicit undefined
      else if r3.2.stopped then (r3.1, r3.2)
      else (none, r3.2)
termination_by fuel _ _ _ => (fuel, 3, 0)

/-- Asset.js 989-999: the `for (let child of getChildren(nodeId))` loop.
Returns the JS result, the state, and whether the loop returned early
because `stopped` was set. -/
def dfsWalkChildren (vis : Visitor Ctx) (getChildren : Graph → Nat → List Nat) :
    Nat → List Nat → Option Ctx → DfsState Ctx → Option Ctx × DfsState Ctx × Bool
  | _, [], _, st => (none, st, false)
  | fuel, child :: rest, ctx, st =>
    -- lines 990-992: `if (visited.has(child)) continue;`
    if st.visited.contains child then dfsWalkChildren vis getChildren fuel rest ctx st
    else
      -- line 994: `visited.add(child);`
      let st := { st with visited := addOnce st.visited child }
      -- line 995: `let result = walk(child, context);`
      let r := dfsWalk vis getChildren fuel child ctx st
      if r.2.stopped then (r.1, r.2, true)
      else dfsWalkChildren vis getChildren fuel rest ctx r.2
termination_by fuel cs _ _ => (fuel, 2, cs.length)

end

/-- Asset.js 940-953 and 1023: resolve the start node
(`startNodeId ?? this.rootNodeId`, `nullthrows`, `_assertHasNodeId`) and
run `walk` with an empty visited set.  `none` models the thrown errors. -/
def Graph.dfs (g : Graph) (vis : Visitor Ctx) (getChildren : Graph → Nat → List Nat)
    (startNodeId : Option Nat) : Option (Option Ctx × DfsState Ctx) :=
  match startNodeId.orElse (fun _ => g.rootNodeId) with
  | none => none
  | some start =>
    if ¬ g.hasNode start then none
    else some (dfsWalk vis getChildren (g.nodes.length + 1) start none ⟨g, [], false, false, []⟩)

/-- No event in the list called `actions.stop()`. -/
def StopFree (Δ : List (DfsEvent Ctx)) : Prop := ∀ ev ∈ Δ, ev.stop = false

/-- Outcome of one (sub)traversal started in state `st`: the trace grew
by some `Δ`, and either no callback of `Δ` called `stop()` and the JS
return value is `undefined`, or the very last callback of `Δ` called
`stop()`, nothing ran after it, and the return value is that callback's
context — except that `undefined` is returned when the traversal's skip
flag is set at that moment. -/
def RunOutcome (st : DfsState Ctx) (res : Option Ctx) (st' : DfsState Ctx) : Prop :=
  ∃ Δ, st'.trace = st.trace ++ Δ ∧
    ((st'.stopped = false ∧ StopFree Δ ∧ res = none) ∨
     (st'.stopped = true ∧ ∃ Δ₀ e, Δ = Δ₀ ++ [e] ∧ StopFree Δ₀ ∧ e.stop = true ∧
        res = (if st'.skipped then none else e.ctxAfter)))

/-- Every event was delivered for a node present in the graph at the
moment of the call. -/
def TraceLive (Δ : List (DfsEvent Ctx)) : Prop :=
  ∀ ev ∈ Δ, ev.graphAtCall.hasNode ev.node = true

/-- The `getChildren` closure that `Graph.traverse` passes to `dfs`
(Asset.js 907-917): outbound neighbours with the default edge type 1. -/
def dfsChildrenDefault (g : Graph) (n : Nat) : List Nat :=
  g.connectedFrom n (.single 1)

/-- One-node graph with root 0. -/
def oneNodeGraph : Graph := { nodes := [0], edges := [], rootNodeId := some 0 }

/-- A visitor whose enter callback returns context 5 and calls both
`actions.skipChildren()` and `actions.stop()`. -/
def stopSkipVisitor : Visitor Nat :=
  { enter := some (fun _ _ g => { newContext := some 5, stop := true, skip := true, graph := g }),
    exit := none }

/-- A visitor whose enter callback returns context 7 and calls
`actions.stop()` only. -/
def stopOnlyVisitor : Visitor Nat :=
  { enter := some (fun _ _ g => { newContext := some 7, stop := true, skip := false, graph := g }),
    exit := none }

/-- The final state of the witness run for `dfs_stop_aborts`. -/
def dfsStopWitnessState : DfsState Nat :=
  { graph := oneNodeGraph
    visited := [0]
    stopped := true
    skipped := false
    trace := [{ isExit := false
                node := 0
                graphAtCall := oneNodeGraph
                ctxAfter := some 7
                stop := true
                skip := false }] }

/-- An enter callback that deletes node 1 from the graph; exit records
nothing.  Used to exercise the `hasNode` guards of `dfs`. -/
def removeNodeOneVisitor : Visitor Nat :=
  { enter := some (fun _ _ g =>
      { newContext := none, stop := false, skip := false,
        graph := { g with nodes := g.nodes.erase 1 } }),
    exit := some (fun _ _ g =>
      { newContext := none, stop := false, skip := false, graph := g }) }

/-- `bfsBugGraph` after the visitor deleted node 1. -/
def graphWithoutOne : Graph := { nodes := [0], edges := [(0, 1, 1)], rootNodeId := some 0 }

/-- The final dfs state of the witness run for `dfs_respects_node_removal`. -/
def dfsRemovalWitnessState : DfsState Nat :=
  { graph := graphWithoutOne
    visited := [0, 1]
    stopped := false
    skipped := false
    trace := [{ isExit := false
                node := 0
                graphAtCall := bfsBugGraph
                ctxAfter := none
                stop := false
                skip := false },
              { isExit := true
                node := 0
                graphAtCall := graphWithoutOne
                ctxAfter := none
                stop := false
                skip := false }] }

/-! ### isOrphanedNode, removeEdge, removeNode (Asset.js 737-858) -/

/-- There is an edge `a → b` of some type: the edge relation underlying
the claim's notion of a directed path "over edges of any type". -/
def edgeAny (g : Graph) (a b : Nat) : Prop := ∃ ty, (a, b, ty) ∈ g.edges

/-- Every node id the ancestor search can ever encounter: the nodes plus
all edge endpoints.  Used only as the universe of the termination
measure. -/
def Graph.searchUniv (g : Graph) : Finset Nat :=
  g.nodes.toFinset ∪ (g.edges.map (·.1)).toFinset ∪ (g.edges.map (·.2.1)).toFinset

mutual

/-- Asset.js 967-1021 `walk`, specialized to the ancestor traversal of
`isOrphanedNode` (lines 840-851): `getChildren` is
`getNodesConnectedTo(nodeId, ALL_EDGE_TYPES)`, the visitor is enter-only,
never skips, and calls `actions.stop()` at the root — the Boolean result
is the `hasPathToRoot` flag.  `u` is the universe for the termination
measure; the wrapper passes `g.searchUniv`, which contains every node id
the search can see. -/
def ancWalk (g : Graph) (u : Finset Nat) (root : Nat) (n : Nat) (visited : Finset Nat) :
    Bool × Finset Nat :=
  -- line 968: `if (!this.hasNode(nodeId)) return;`
  if ¬ g.hasNode n then (false, visited)
  -- line 969: `visited.add(nodeId);`  visitor stops at the root (845-848)
  else if n = root then (true, insert n visited)
  else ancList g u root (g.connectedTo n .all) (insert n visited)
termination_by ((u \ visited).card, 1, 0)
decreasing_by
  refine Prod.Lex.right' _ ?_ (Prod.Lex.left _ _ (by omega))
  exact Finset.card_le_card (Finset.sdiff_subset_sdiff (le_refl u) (Finset.subset_insert _ _))

/-- Asset.js 989-999, the child loop of the specialized walk.  When a
child is outside the universe `u` it is no node of the graph, so the
recursive walk would return immediately after `visited.add(child)`; the
branch performs exactly that effect without the call (needed for the
termination measure). -/
def ancList (g : Graph) (u : Finset Nat) (root : Nat) (cs : List Nat)
    (visited : Finset Nat) : Bool × Finset Nat :=
  match cs with
  | [] => (false, visited)
  | c :: rest =>
    -- lines 990-992: `if (visited.has(child)) continue;`
    if c ∈ visited then ancList g u root rest visited
    else if hcu : c ∈ u then
      -- lines 994-998: `visited.add(child); let result = walk(child); if (stopped) ...`
      let r := ancWalk g u root c (insert c visited)
      if r.1 then (true, r.2)
      else ancList g u root rest (r.2 ∪ insert c visited)
    else ancList g u root rest (insert c visited)
termination_by ((u \ visited).card, 0, cs.length)
decreasing_by
  · exact Prod.Lex.right' _ (le_refl _) (Prod.Lex.right _ (by simp))
  · rename_i hcv
    refine Prod.Lex.left _ _ ?_
    have hc : x ∈ u \ visited := Finset.mem_sdiff.mpr ⟨hcu, hcv⟩
    calc (u \ insert x visited).card = ((u \ visited).erase x).card := by
          rw [Finset.sdiff_insert]
      _ < (u \ visited).card := Finset.card_erase_lt_of_mem hc
  · rename_i hcv hr
    refine Prod.Lex.left _ _ ?_
    have hc : x ∈ u \ visited := Finset.mem_sdiff.mpr ⟨hcu, hcv⟩
    have hsub : u \ (r.2 ∪ insert x visited) ⊆ (u \ visited).erase x := by
      intro y hy
      rw [Finset.mem_sdiff] at hy
      rw [Finset.mem_erase, Finset.mem_sdiff]
      refine ⟨?_, hy.1, ?_⟩
      · intro hyc
        exact hy.2 (by subst hyc; exact Finset.mem_union_right _ (Finset.mem_insert_self _ _))
      · intro hyv
        exact hy.2 (Finset.mem_union_right _ (Finset.mem_insert_of_mem hyv))
    calc (u \ (r.2 ∪ insert x visited)).card ≤ ((u \ visited).erase x).card :=
          Finset.card_le_card hsub
      _ < (u \ visited).card := Finset.card_erase_lt_of_mem hc
  · refine Prod.Lex.right' _ ?_ (Prod.Lex.right _ (by simp))
    exact Finset.card_le_card (Finset.sdiff_subset_sdiff (le_refl u) (Finset.subset_insert _ _))

end

/-- Asset.js 820-858.  With no root, a node is orphaned iff it has no
inbound edges (830-834); with a root, `traverseAncestors` over
`ALL_EDGE_TYPES` searches for a path back to the root (839-857).  The
`_assertHasNodeId` throw is modelled as `false` (the claims only apply it
to nodes that are present). -/
def Graph.isOrphanedNode (g : Graph) (n : Nat) : Bool :=
  if ¬ g.hasNode n then false
  else
    match g.rootNodeId with
    | none => (g.inboundEdges n).isEmpty
    | some root => !(ancWalk g g.searchUniv root n ∅).1

/-- AdjacencyList.removeEdge: unlink the `(from, to, type)` triple. -/
def Graph.eraseEdge (g : Graph) (f t ty : Nat) : Graph :=
  { g with edges := g.edges.filter (fun e => e ≠ (f, t, ty)) }

mutual

/-- Asset.js 802-818 `removeEdge`: throw (`none`) when the edge does not
exist; unlink it; when `removeOrphans` is set and the target is now
orphaned, remove the target node.  Fuel bounds the removal cascade; the
wrapper passes enough for any graph. -/
def removeEdgeF : Nat → Graph → Nat → Nat → Nat → Bool → Option Graph
  | 0, _, _, _, _, _ => none
  | fuel + 1, g, f, t, ty, removeOrphans =>
    if ¬ g.hasEdgeB f t ty then none
    else
      let g1 := g.eraseEdge f t ty
      if removeOrphans && g1.isOrphanedNode t then removeNodeF fuel g1 t
      else some g1

/-- Asset.js 737-788 `removeNode`: remove every inbound edge with orphan
pruning off, then every outbound edge with orphan pruning on (both loops
iterate over a snapshot taken when the loop starts), then delete the node
and assert that it was present. -/
def removeNodeF : Nat → Graph → Nat → Option Graph
  | 0, _, _ => none
  | fuel + 1, g, n =>
    if ¬ g.hasNode n then none
    else
      ((g.inboundEdges n).foldlM
        (fun acc (e : Nat × Nat × Nat) => removeEdgeF fuel acc e.1 n e.2.2 false) g).bind
        fun g1 =>
          ((g1.outboundEdges n).foldlM
            (fun acc (e : Nat × Nat × Nat) => removeEdgeF fuel acc n e.2.1 e.2.2 true) g1).bind
            fun g2 =>
              if g2.hasNode n then some { g2 with nodes := g2.nodes.filter (· ≠ n) }
              else none

end

/-- Asset.js 802-818 with the caller-facing fuel bound. -/
def Graph.removeEdge (g : Graph) (f t ty : Nat) (removeOrphans : Bool) : Option Graph :=
  removeEdgeF (g.nodes.length + g.edges.length + 2) g f t ty removeOrphans

/-- Every edge endpoint is a node (maintained by `addEdge`'s endpoint
checks, Asset.js 646-652, and by `removeNode` removing incident edges). -/
def Graph.WF (g : Graph) : Prop :=
  ∀ e ∈ g.edges, e.1 ∈ g.nodes ∧ e.2.1 ∈ g.nodes

instance (g : Graph) : Decidable g.WF := by
  unfold Graph.WF
  infer_instance

/-- The claim's definition of an orphaned node: either the graph has no
root and the node has no inbound edges, or the graph has a root and no
directed path over edges of any type leads from the root to the node. -/
def OrphanedSpec (g : Graph) (n : Nat) : Prop :=
  match g.rootNodeId with
  | none => g.inboundEdges n = []
  | some root => ¬ Relation.ReflTransGen (edgeAny g) root n

/-- The closure property of a fully explored non-root node: all its
parents (over any edge type) are in the visited set. -/
def GoodAnc (g : Graph) (root : Nat) (x : Nat) (V : Finset Nat) : Prop :=
  x ≠ root ∧ ∀ p, edgeAny g p x → p ∈ V

/-- `g'` has a subset of the nodes and edges of `g`. -/
def SubGraph (g' g : Graph) : Prop :=
  (∀ e ∈ g'.edges, e ∈ g.edges) ∧ (∀ x ∈ g'.nodes, x ∈ g.nodes)

/-- The expected result of removing the edge `0 → 1` from `bfsBugGraph`:
node 1 becomes orphaned and is removed. -/
def chainRemovedGraph : Graph := { nodes := [0], edges := [], rootNodeId := some 0 }

/-! ## Symbol propagation (src/unnamed/part_001)

The asset graph specializes the generic graph with tagged node payloads
(`root`, `asset`, `dependency`, `asset_group`).  The external `@parcel/rust`
database is a pair of lookup functions plus the two interned symbols.
JS `Set`/`Map` are lists in insertion order, as before.  `invariant` and
`nullthrows` failures are modelled as harmless no-ops/defaults (each spot
is marked); on graphs satisfying those invariants — all the graphs in the
theorems below — the behaviour is exactly the source's. -/

abbrev SymbolId := Nat

abbrev ContentKey := Nat

abbrev NodeId := Nat

/-- One symbols-table entry `{exported, local, flags, loc?}`; `isWeak`
models `flags & SymbolFlags.IS_WEAK`, `loc` the optional source location
(only its file is observable in diagnostics). -/
structure SymbolEntry where
  exported : SymbolId
  localSym : SymbolId
  isWeak : Bool
  loc : Option Nat
deriving DecidableEq, Repr

inductive BundleBehavior where
  | isolated
  | inlined
  | regular
deriving DecidableEq, Repr

/-- `DbAsset.get(db, value)` projection: the fields part_001 reads.
`sideEffects` models `flags & AssetFlags.SIDE_EFFECTS`. -/
structure DbAsset where
  symbols : Option (List SymbolEntry)
  filePath : Nat
  sideEffects : Bool
  bundleBehavior : BundleBehavior
deriving Repr

/-- `DbDependency.get(db, value)` projection.  `hasSymbols` models
`flags & DependencyFlags.HAS_SYMBOLS`. -/
structure DbDependency where
  symbols : Option (List SymbolEntry)
  sourceAssetId : Option Nat
  hasSymbols : Bool
deriving Repr

structure Db where
  assets : Nat → DbAsset
  deps : Nat → DbDependency
  starSymbol : SymbolId
  defaultSymbol : SymbolId

/-- A `usedSymbolsUp` value: `{asset: ContentKey, symbol: ?SymbolId}`.
The surrounding `Option` is `null`/`undefined` ("ambiguous"). -/
structure Resolution where
  asset : ContentKey
  symbol : Option SymbolId
deriving DecidableEq, Repr

abbrev UsedMap := List (SymbolId × Option Resolution)

structure AssetNodeData where
  id : ContentKey
  value : Nat
  usedSymbols : List SymbolId
  usedSymbolsDownDirty : Bool
  usedSymbolsUpDirty : Bool
deriving DecidableEq, Repr

structure DepNodeData where
  id : ContentKey
  value : Nat
  usedSymbolsDown : List SymbolId
  usedSymbolsUp : UsedMap
  usedSymbolsDownDirty : Bool
  usedSymbolsUpDirtyDown : Bool
  usedSymbolsUpDirtyUp : Bool
  excluded : Bool
deriving DecidableEq, Repr

/-- `asset_group` payload: the propagator reads `value.sideEffects` and
`value.filePath` and toggles `usedSymbolsDownDirty`. -/
structure AssetGroupData where
  id : ContentKey
  filePath : Nat
  sideEffects : Bool
  usedSymbolsDownDirty : Bool
deriving DecidableEq, Repr

inductive AGNode where
  | root (id : ContentKey)
  | asset (d : AssetNodeData)
  | dependency (d : DepNodeData)
  | assetGroup (d : AssetGroupData)
deriving DecidableEq, Repr

def AGNode.id : AGNode → ContentKey
  | .root i => i
  | .asset d => d.id
  | .dependency d => d.id
  | .assetGroup d => d.id

/-- Constructor tag, for the frame property. -/
def AGNode.tag : AGNode → Nat
  | .root _ => 0
  | .asset _ => 1
  | .dependency _ => 2
  | .assetGroup _ => 3

structure AssetGraph where
  nodes : List (NodeId × AGNode)
  edges : List (NodeId × NodeId × Nat)
  rootNodeId : Option NodeId
deriving DecidableEq, Repr

def AssetGraph.getNode (g : AssetGraph) (n : NodeId) : Option AGNode :=
  (g.nodes.find? (·.1 == n)).map (·.2)

/-- `nullthrows(getNode(id))`, total with a junk root payload; never the
junk on the invariant-respecting graphs of the theorems. -/
def AssetGraph.getNodeD (g : AssetGraph) (n : NodeId) : AGNode :=
  (g.getNode n).getD (.root 0)

def AssetGraph.hasNode (g : AssetGraph) (n : NodeId) : Bool :=
  (g.getNode n).isSome

def AssetGraph.updateNode (g : AssetGraph) (n : NodeId) (p : AGNode) : AssetGraph :=
  { g with nodes := g.nodes.map (fun kv => if kv.1 == n then (kv.1, p) else kv) }

/-- `getNodeIdsConnectedFrom(id)` with the default edge type 1 — the only
form the propagator uses. -/
def AssetGraph.connectedFrom (g : AssetGraph) (n : NodeId) : List NodeId :=
  firstOcc ((g.edges.filter (fun e => e.1 == n && e.2.2 == 1)).map (·.2.1))

def AssetGraph.connectedTo (g : AssetGraph) (n : NodeId) : List NodeId :=
  firstOcc ((g.edges.filter (fun e => e.2.1 == n && e.2.2 == 1)).map (·.1))

/-- Modelled from the spec: the graph's side index `ContentKey → NodeId`
(spec §3); `nullthrows` on a miss is the junk id 0. -/
def AssetGraph.getNodeIdByContentKey (g : AssetGraph) (ck : ContentKey) : NodeId :=
  ((g.nodes.find? (fun kv => kv.2.id == ck)).map (·.1)).getD 0

def AssetGraph.getNodeByContentKey (g : AssetGraph) (ck : ContentKey) : Option AGNode :=
  (g.nodes.find? (fun kv => kv.2.id == ck)).map (·.2)

/-- Modelled from the spec: `getIncomingDependencies(asset.value)` returns
the content keys of the dependencies that resolve to the asset — its
graph parents, looking through one `asset_group` level (spec §3, §4.3:
"each dep's resolution(s), following asset_group indirection"). -/
def AssetGraph.getIncomingDependencies (g : AssetGraph) (value : Nat) : List ContentKey :=
  match g.nodes.find? (fun kv => match kv.2 with
    | .asset d => d.value == value
    | _ => false) with
  | none => []
  | some (nid, _) =>
    ((g.connectedTo nid).map (fun p =>
      match g.getNodeD p with
      | .assetGroup _ =>
        (g.connectedTo p).filterMap (fun q =>
          match g.getNodeD q with
          | .dependency d => some d.id
          | _ => none)
      | .dependency d => [d.id]
      | _ => [])).flatten

/-- JS `Set.add`: append when absent. -/
def setAdd (l : List SymbolId) (s : SymbolId) : List SymbolId :=
  if l.contains s then l else l ++ [s]

/-- JS `Set.delete`. -/
def setDelete (l : List SymbolId) (s : SymbolId) : List SymbolId :=
  l.filter (· ≠ s)

/-- JS `Map.set`: keep the position of an existing key, append a new one. -/
def mapSet {β : Type} (m : List (SymbolId × β)) (k : SymbolId) (v : β) :
    List (SymbolId × β) :=
  if m.any (·.1 == k) then m.map (fun kv => if kv.1 == k then (k, v) else kv) else m ++ [(k, v)]

def mapHas {β : Type} (m : List (SymbolId × β)) (k : SymbolId) : Bool :=
  m.any (·.1 == k)

/-- `m.get(k)` for a map whose values are themselves nullable: a missing
key and a stored `null` both read back as nullish. -/
def mapGetJoin (m : UsedMap) (k : SymbolId) : Option Resolution :=
  ((m.find? (·.1 == k)).map (·.2)).getD none

def optAsset (o : Option Resolution) : Option ContentKey := o.map (·.asset)

/-- `o?.symbol`: nullish when `o` is nullish or its `symbol` is. -/
def optSym (o : Option Resolution) : Option SymbolId := o.bind (·.symbol)

/-- `setEqual` from `@parcel/utils`: same size and every element of `a`
is in `b` (the arguments are duplicate-free JS sets). -/
def setEqualFn (a b : List SymbolId) : Bool :=
  a.length == b.length && a.all (b.contains ·)

/-- part_001 811-822 `equalMap`: same size; for every key of `a`, present
in `b` with the same `asset`/`symbol` fields (nullish-equal). -/
def equalMapFn (a b : UsedMap) : Bool :=
  a.length == b.length &&
  a.all (fun kv =>
    mapHas b kv.1 &&
    optAsset (mapGetJoin b kv.1) == optAsset kv.2 &&
    optSym (mapGetJoin b kv.1) == optSym kv.2)

/-- part_001 388-404 `usedSymbolsUpAmbiguous`.  The reference inequality
`valueOld !== value` is immaterial: when the references are equal the
field comparison succeeds as well, so only the field comparison is
modelled. -/
def usedSymbolsUpAmbiguous (old : UsedMap) (current : UsedMap) (s : SymbolId)
    (value : Resolution) : UsedMap :=
  if mapHas old s then
    let valueOld := mapGetJoin old s
    if ¬ (optAsset valueOld == some value.asset && optSym valueOld == value.symbol) then
      mapSet current s none
    else mapSet current s (some value)
  else mapSet current s (some value)

/-- `assetSymbolsInverse`: `Map<local, Set<exported>>` built in table
order (part_001 79-91). -/
def assetSymbolsInverseOf (assetSymbols : Option (List SymbolEntry)) :
    Option (List (SymbolId × List SymbolId)) :=
  match assetSymbols with
  | none => none
  | some syms => some (syms.foldl (fun m s =>
      if mapHas m s.localSym then
        m.map (fun kv => if kv.1 == s.localSym then (kv.1, setAdd kv.2 s.exported) else kv)
      else m ++ [(s.localSym, [s.exported])]) [])

/-- The down-pass visitor, part_001 74-247.  Takes the payloads the loop
hands the closure; returns the asset's new `usedSymbols`, the outgoing
dependency payloads after mutation (same order), and the content keys
appended to `changedDepsUsedSymbolsUpDirtyDown` (in append order). -/
def downVisit (db : Db) (assetNode : AssetNodeData)
    (incomingDeps : List DepNodeData) (outgoingDeps : List DepNodeData) :
    List SymbolId × List DepNodeData × List ContentKey :=
  let asset := db.assets assetNode.value
  let assetSymbols := asset.symbols
  let assetSymbolsInverse := assetSymbolsInverseOf assetSymbols
  let hasNamespaceOutgoingDeps := outgoingDeps.any (fun d =>
    match (db.deps d.value).symbols with
    | none => false
    | some syms =>
      match syms.find? (fun s => s.exported == db.starSymbol) with
      | some e => e.localSym == db.starSymbol
      | none => false)
  -- 1) what the incomingDeps request from the asset (isEntry, addAll, usedSymbols, nsre)
  let st1 : Bool × Bool × List SymbolId × List SymbolId :=
    if incomingDeps.isEmpty then
      (false, false, [db.starSymbol], [db.starSymbol])
    else
      incomingDeps.foldl (fun acc incomingDep =>
        let dep := db.deps incomingDep.value
        if ¬ dep.hasSymbols then
          if dep.sourceAssetId.isNone then (true, acc.2.1, acc.2.2.1, acc.2.2.2)
          else (acc.1, true, acc.2.2.1, acc.2.2.2)
        else
          incomingDep.usedSymbolsDown.foldl (fun acc2 exportSymbol =>
            let (isEntry, addAll, used, nsre) := acc2
            let (used, nsre) :=
              if exportSymbol == db.starSymbol then
                (setAdd used db.starSymbol, setAdd nsre db.starSymbol)
              else (used, nsre)
            if (match assetSymbols with
                | none => true
                | some syms =>
                  syms.any (fun s => s.exported == exportSymbol) ||
                  syms.any (fun s => s.exported == db.starSymbol)) then
              (isEntry, addAll, setAdd used exportSymbol, nsre)
            else if hasNamespaceOutgoingDeps && exportSymbol != db.defaultSymbol then
              (isEntry, addAll, used, setAdd nsre exportSymbol)
            else (isEntry, addAll, used, nsre)) acc)
        (false, false, [], [])
  let isEntry := st1.1
  let addAll := st1.2.1
  -- part_001 157-161; iterating null assetSymbols would throw in JS, modelled as []
  let used0 :=
    if addAll then
      (assetSymbols.getD []).foldl (fun u s => setAdd u s.exported) st1.2.2.1
    else st1.2.2.1
  let nsre := st1.2.2.2
  -- 2) distribute to the outgoing dependencies (used set threads through)
  let st2 : List SymbolId × List DepNodeData × List ContentKey :=
    outgoingDeps.foldl (fun acc dep =>
      let (used, outs, changed) := acc
      let depUsedSymbolsDownOld := dep.usedSymbolsDown
      if asset.sideEffects || addAll || isEntry || used.length > 0 || nsre.length > 0 then
        match (db.deps dep.value).symbols with
        | none =>
          -- `continue` at 184: the new empty set was already assigned (166-168),
          -- the change check 237-245 is skipped
          (used, outs ++ [{ dep with usedSymbolsDown := [] }], changed)
        | some depSymbols =>
          let down0 : List SymbolId :=
            if (depSymbols.find? (fun s => s.exported == db.starSymbol)).map
                (·.localSym) == some db.starSymbol then
              if addAll then [db.starSymbol]
              else nsre.foldl setAdd []
            else []
          let st3 : List SymbolId × List SymbolId :=
            depSymbols.foldl (fun acc2 entry =>
              let (down, usedCur) := acc2
              if entry.localSym == db.starSymbol then acc2
              else
                match assetSymbolsInverse with
                | none => (setAdd down entry.exported, usedCur)
                | some inv =>
                  if ¬ entry.isWeak then (setAdd down entry.exported, usedCur)
                  else
                    match inv.find? (·.1 == entry.localSym) with
                    | none => (setAdd down entry.exported, usedCur)
                    | some kv =>
                      if usedCur.contains db.starSymbol then
                        (setAdd down entry.exported, kv.2.foldl setDelete usedCur)
                      else
                        let usedRe := kv.2.filter (usedCur.contains ·)
                        if usedRe.length > 0 then
                          (setAdd down entry.exported, usedRe.foldl setDelete usedCur)
                        else acc2) (down0, used)
          let down := st3.1
          let used := st3.2
          let dirty := ¬ setEqualFn depUsedSymbolsDownOld down
          let dep := { dep with
            usedSymbolsDown := down
            usedSymbolsDownDirty := dep.usedSymbolsDownDirty || dirty
            usedSymbolsUpDirtyDown := dep.usedSymbolsUpDirtyDown || dirty }
          let changed := if dirty then addOnce changed dep.id else changed
          let changed := if dep.usedSymbolsUpDirtyDown then addOnce changed dep.id else changed
          (used, outs ++ [dep], changed)
      else
        let dirty := ¬ setEqualFn depUsedSymbolsDownOld []
        let dep := { dep with
          usedSymbolsDown := []
          usedSymbolsDownDirty := dep.usedSymbolsDownDirty || dirty
          usedSymbolsUpDirtyDown := dep.usedSymbolsUpDirtyDown || dirty }
        let changed := if dirty then addOnce changed dep.id else changed
        let changed := if dep.usedSymbolsUpDirtyDown then addOnce changed dep.id else changed
        (used, outs ++ [dep], changed)) (used0, [], [])
  st2

/-- Write an asset payload back; a non-asset at `n` would have tripped the
source's `invariant`, modelled as a no-op (never reached on the
invariant-respecting graphs of the theorems). -/
def AssetGraph.updateAsset (g : AssetGraph) (n : NodeId) (d : AssetNodeData) : AssetGraph :=
  match g.getNode n with
  | some (.asset _) => g.updateNode n (.asset d)
  | _ => g

def AssetGraph.updateDep (g : AssetGraph) (n : NodeId) (d : DepNodeData) : AssetGraph :=
  match g.getNode n with
  | some (.dependency _) => g.updateNode n (.dependency d)
  | _ => g

/-- The `(nodeId, payload)` pairs of the outgoing dependency nodes; the
source's `invariant(type === 'dependency')` drops non-deps here. -/
def AssetGraph.outgoingDepPairs (g : AssetGraph) (n : NodeId) : List (NodeId × DepNodeData) :=
  (g.connectedFrom n).filterMap (fun nid =>
    match g.getNodeD nid with
    | .dependency d => some (nid, d)
    | _ => none)

/-- The `(nodeId, payload)` pairs behind `getIncomingDependencies(...).map(
getNodeByContentKey)`; the `invariant(dep && dep.type === 'dependency')`
drops misses. -/
def AssetGraph.incomingDepPairs (g : AssetGraph) (value : Nat) : List (NodeId × DepNodeData) :=
  (g.getIncomingDependencies value).filterMap (fun ck =>
    match g.getNodeByContentKey ck with
    | some (.dependency d) => some (g.getNodeIdByContentKey ck, d)
    | _ => none)

/-- Child enqueueing of the down-pass loop, part_001 603-617. -/
def downChildStep (wasNodeDirty : Bool) (acc : AssetGraph × List NodeId)
    (child : NodeId) : AssetGraph × List NodeId :=
  match acc.1.getNodeD child with
  | .asset cd =>
    if wasNodeDirty then
      (acc.1.updateNode child (.asset { cd with usedSymbolsDownDirty := true }),
        addOnce acc.2 child)
    else acc
  | .assetGroup cd =>
    if wasNodeDirty then
      (acc.1.updateNode child (.assetGroup { cd with usedSymbolsDownDirty := true }),
        addOnce acc.2 child)
    else acc
  | .dependency cd =>
    if cd.usedSymbolsDownDirty then (acc.1, addOnce acc.2 child) else acc
  | .root _ => acc

/-- Write one visitor-mutated outgoing dependency payload back. -/
def writeDepPair (gg : AssetGraph) (pr : (NodeId × DepNodeData) × DepNodeData) : AssetGraph :=
  gg.updateDep pr.1.1 pr.2

/-- One iteration of the down-pass queue loop body, part_001 575-622. -/
def propagateSymbolsDownStep (db : Db) (g : AssetGraph) (queuedNodeId : NodeId)
    (queueRest : List NodeId) (unreached : List NodeId) (changed : List ContentKey) :
    AssetGraph × List NodeId × List NodeId × List ContentKey :=
  let unreached := unreached.filter (· ≠ queuedNodeId)
  let outgoing := g.connectedFrom queuedNodeId
  let (g, wasNodeDirty, changed) : AssetGraph × Bool × List ContentKey :=
    match g.getNodeD queuedNodeId with
    | .dependency d =>
      (g.updateNode queuedNodeId (.dependency { d with usedSymbolsDownDirty := false }),
       d.usedSymbolsDownDirty, changed)
    | .assetGroup d =>
      (g.updateNode queuedNodeId (.assetGroup { d with usedSymbolsDownDirty := false }),
       d.usedSymbolsDownDirty, changed)
    | .asset d =>
      if d.usedSymbolsDownDirty then
        let incomingPairs := g.incomingDepPairs d.value
        let outgoingPairs := g.outgoingDepPairs queuedNodeId
        let r := downVisit db d (incomingPairs.map (·.2)) (outgoingPairs.map (·.2))
        let g := g.updateAsset queuedNodeId
          { d with usedSymbols := r.1, usedSymbolsDownDirty := false }
        let g := (outgoingPairs.zip r.2.1).foldl writeDepPair g
        (g, false, r.2.2.foldl addOnce changed)
      else (g, false, changed)
    | .root _ => (g, false, changed)
  let gq := outgoing.foldl (downChildStep wasNodeDirty) (g, queueRest)
  (gq.1, gq.2, unreached, changed)

/-- The down-pass queue loop, part_001 575-623, with explicit fuel (the
source terminates because dirty flags burn off; every theorem's witness
supplies ample fuel). -/
def propagateSymbolsDownLoop (db : Db) : Nat → AssetGraph → List NodeId → List NodeId →
    List ContentKey → AssetGraph × List ContentKey
  | 0, g, _, _, changed => (g, changed)
  | _ + 1, g, [], _, changed => (g, changed)
  | fuel + 1, g, queuedNodeId :: queueRest, unreached, changed =>
    let r := propagateSymbolsDownStep db g queuedNodeId queueRest unreached changed
    let (queue, unreached) :=
      match r.2.1, r.2.2.1 with
      | [], u :: us => ([u], us)
      | q, u => (q, u)
    propagateSymbolsDownLoop db fuel r.1 queue unreached r.2.2.2

/-- part_001 529-624 `propagateSymbolsDown` (the visitor inlined as
`downVisit`); returns the graph and `changedDepsUsedSymbolsUpDirtyDown`. -/
def propagateSymbolsDown (db : Db) (g : AssetGraph) (changedAssets : List NodeId)
    (assetGroupsWithRemovedParents : List NodeId) (fuel : Nat) :
    AssetGraph × List ContentKey :=
  if changedAssets.isEmpty && assetGroupsWithRemovedParents.isEmpty then (g, [])
  else
    match (assetGroupsWithRemovedParents.foldl addOnce changedAssets) with
    | [] => (g, [])
    | u :: us => propagateSymbolsDownLoop db fuel g [u] us []

/-- part_001 792-809 `getDependencyResolution`. -/
def getDependencyResolution (g : AssetGraph) (depId : ContentKey) : List NodeId :=
  let depNodeId := g.getNodeIdByContentKey depId
  match g.connectedFrom depNodeId with
  | [] => []
  | child :: _ =>
    match g.getNodeD child with
    | .assetGroup _ => g.connectedFrom child
    | _ => [child]

/-- A diagnostic, reduced to its observable data: the resolution's file
path in the message, the missing symbol, and the code frame's source file
(absent when the symbol has no `loc`). -/
structure Diag where
  filePath : Nat
  symbol : SymbolId
  locFile : Option Nat
deriving DecidableEq, Repr

/-- The up-pass visitor, part_001 279-514.  Takes the graph (connectivity
queries only), the asset payload and the incoming/outgoing `(nodeId,
payload)` pairs; returns the asset's new `usedSymbols`, the outgoing and
incoming payloads after mutation, the errors array, and the node ids
appended to `changedDeps`.  `reexportedSymbolsSource` (only feeds the
verbose-mode log) is not modelled. -/
def upVisit (db : Db) (g : AssetGraph) (assetNode : AssetNodeData)
    (incoming : List (NodeId × DepNodeData)) (outgoing : List (NodeId × DepNodeData)) :
    List SymbolId × List (NodeId × DepNodeData) × List (NodeId × DepNodeData) ×
      List Diag × List NodeId :=
  let asset := db.assets assetNode.value
  let assetSymbols := asset.symbols
  let assetSymbolsInverse := assetSymbolsInverseOf assetSymbols
  let ph1 : List SymbolId × List (NodeId × DepNodeData) × List (SymbolId × Option Resolution) :=
    outgoing.foldl (fun acc pr =>
      let (used, outs, re) := acc
      let outgoingDep := pr.2
      match (db.deps outgoingDep.value).symbols with
      | none => (used, outs ++ [pr], re)
      | some outgoingDepSymbols =>
        let isExcluded :=
          (g.connectedFrom (g.getNodeIdByContentKey outgoingDep.id)).isEmpty
        -- part_001 314-318: merge usedSymbolsDown as null entries, no clearing
        let mergedUp := outgoingDep.usedSymbolsDown.foldl
          (fun m s => mapSet m s none) outgoingDep.usedSymbolsUp
        let outgoingDep :=
          if isExcluded then { outgoingDep with usedSymbolsUp := mergedUp }
          else outgoingDep
        let (used, re) :=
          if (outgoingDepSymbols.find? (fun s => s.exported == db.starSymbol)).map
              (·.localSym) == some db.starSymbol then
            outgoingDep.usedSymbolsUp.foldl (fun acc2 kv =>
              let (used2, re2) := acc2
              if kv.1 == db.defaultSymbol then acc2
              else if mapHas re2 kv.1 then
                (setAdd used2 db.starSymbol,
                 mapSet re2 kv.1 (some ⟨assetNode.id, some kv.1⟩))
              else (used2, mapSet re2 kv.1 kv.2)) (used, re)
          else (used, re)
        let (used, re) :=
          outgoingDep.usedSymbolsUp.foldl (fun acc2 kv =>
            if ¬ outgoingDep.usedSymbolsDown.contains kv.1 then acc2
            else
              match outgoingDepSymbols.find? (fun sym => sym.exported == kv.1) with
              | none => acc2
              | some symEntry =>
                match assetSymbolsInverse with
                | none => acc2
                | some inv =>
                  match inv.find? (·.1 == symEntry.localSym) with
                  | none => acc2
                  | some kvInv =>
                    kvInv.2.foldl (fun acc3 r =>
                      let (used3, re3) := acc3
                      if mapHas re3 r then
                        (setAdd used3 db.starSymbol,
                         mapSet re3 r (some ⟨assetNode.id, some r⟩))
                      else (used3, mapSet re3 r kv.2)) acc2) (used, re)
        (used, outs ++ [(pr.1, outgoingDep)], re)) (assetNode.usedSymbols, [], [])
  let used := ph1.1
  let reexportedSymbols := ph1.2.2
  let ph2 : List (NodeId × DepNodeData) × List Diag × List NodeId :=
    incoming.foldl (fun acc pr =>
      let (ins, errors, changedAdds) := acc
      let incomingDep := pr.2
      let dep := db.deps incomingDep.value
      let old := incomingDep.usedSymbolsUp
      -- part_001 409: the map is wiped before the symbols check
      let incomingDep := { incomingDep with usedSymbolsUp := [] }
      match dep.symbols with
      | none => (ins ++ [(pr.1, incomingDep)], errors, changedAdds)
      | some incomingDepSymbols =>
        let hasNamespaceReexport :=
          (incomingDepSymbols.find? (fun s => s.exported == db.starSymbol)).map
            (·.localSym) == some db.starSymbol
        let st : UsedMap × List Diag :=
          incomingDep.usedSymbolsDown.foldl (fun acc2 s =>
            let (up, errs) := acc2
            if assetSymbols.isNone || asset.bundleBehavior == .isolated ||
               asset.bundleBehavior == .inlined || s == db.starSymbol ||
               used.contains s then
              (usedSymbolsUpAmbiguous old up s ⟨assetNode.id, some s⟩, errs)
            else if mapHas reexportedSymbols s then
              let v : Resolution :=
                match mapGetJoin reexportedSymbols s with
                | some r => if ¬ asset.sideEffects then r else ⟨assetNode.id, some s⟩
                | none => ⟨assetNode.id, some s⟩
              (usedSymbolsUpAmbiguous old up s v, errs)
            else if ¬ hasNamespaceReexport then
              let loc :=
                (incomingDepSymbols.find? (fun sym => sym.exported == s)).bind (·.loc)
              let filePath :=
                match (g.connectedFrom (g.getNodeIdByContentKey incomingDep.id)).head? with
                | none => 0  -- nullthrows junk
                | some rid =>
                  match g.getNodeD rid with
                  | .asset ad => (db.assets ad.value).filePath
                  | .assetGroup gd => gd.filePath
                  | _ => 0   -- invariant junk
              (up, errs ++ [⟨filePath, s, loc⟩])
            else acc2) ([], errors)
        let changedQ := ¬ equalMapFn old st.1
        let incomingDep := { incomingDep with
          usedSymbolsUp := st.1
          usedSymbolsUpDirtyUp := incomingDep.usedSymbolsUpDirtyUp || changedQ }
        let changedAdds := if changedQ then addOnce changedAdds pr.1 else changedAdds
        let incomingDep := { incomingDep with excluded := false }
        let incomingDep :=
          if dep.hasSymbols && incomingDep.usedSymbolsUp.isEmpty then
            match g.connectedFrom (g.getNodeIdByContentKey incomingDep.id) with
            | [assetGroupId] =>
              match g.getNodeD assetGroupId with
              | .assetGroup agd =>
                if agd.sideEffects == false then { incomingDep with excluded := true }
                else incomingDep
              | _ => incomingDep
            | _ => incomingDep   -- invariant(length === 0)
          else incomingDep
        (ins ++ [(pr.1, incomingDep)], st.2, changedAdds)) ([], [], [])
  (used, ph1.2.1, ph2)

/-- Step A of an asset's up-loop iteration (part_001 745-750): consume
incoming `usedSymbolsUpDirtyDown` flags into the asset's dirtiness. -/
def clearDirtyDownStep (acc : AssetGraph × Bool) (pr : NodeId × DepNodeData) :
    AssetGraph × Bool :=
  if pr.2.usedSymbolsUpDirtyDown then
    (acc.1.updateDep pr.1 { pr.2 with usedSymbolsUpDirtyDown := false }, true)
  else acc

/-- Step B (part_001 758-763): consume outgoing `usedSymbolsUpDirtyUp`. -/
def clearDirtyUpStep (acc : AssetGraph × Bool) (pr : NodeId × DepNodeData) :
    AssetGraph × Bool :=
  if pr.2.usedSymbolsUpDirtyUp then
    (acc.1.updateDep pr.1 { pr.2 with usedSymbolsUpDirtyUp := false }, true)
  else acc

/-- Write one visitor-mutated dependency payload back. -/
def writeDep (gg : AssetGraph) (pr : NodeId × DepNodeData) : AssetGraph :=
  gg.updateDep pr.1 pr.2

/-- One iteration of the up-pass queue loop body, part_001 737-786.  The
`events` list records `(nodeId, returned errors)` for every visitor
invocation.  In the non-asset branch, `queue.add(...connectedNodes)`
passes the spread to `Set.add`, which takes a single argument: only the
first connected node is enqueued. -/
def propagateSymbolsUpStep (db : Db) (g : AssetGraph) (queuedNodeId : NodeId)
    (queueRest : List NodeId) (errors : List (NodeId × List Diag))
    (changedDeps : List NodeId) (events : List (NodeId × List Diag)) :
    AssetGraph × List NodeId × List (NodeId × List Diag) × List NodeId ×
      List (NodeId × List Diag) :=
  match g.getNodeD queuedNodeId with
  | .asset d =>
    let stA : AssetGraph × Bool :=
      (g.incomingDepPairs d.value).foldl clearDirtyDownStep (g, d.usedSymbolsUpDirty)
    let g1 := stA.1
    let stB : AssetGraph × Bool :=
      (g1.outgoingDepPairs queuedNodeId).foldl clearDirtyUpStep (g1, stA.2)
    let g2 := stB.1
    if stB.2 then
      let r := upVisit db g2 d (g2.incomingDepPairs d.value) (g2.outgoingDepPairs queuedNodeId)
      let g3 := r.2.1.foldl writeDep g2
      let g3 := r.2.2.1.foldl writeDep g3
      let e := r.2.2.2.1
      let changedDeps := r.2.2.2.2.foldl addOnce changedDeps
      let g3 := g3.updateAsset queuedNodeId
        { d with usedSymbols := r.1, usedSymbolsUpDirty := ¬ e.isEmpty }
      let errors :=
        if e.isEmpty then errors.filter (·.1 ≠ queuedNodeId)
        else mapSet errors queuedNodeId e
      let events := events ++ [(queuedNodeId, e)]
      let queue := (g3.incomingDepPairs d.value).foldl (fun q pr =>
        if pr.2.usedSymbolsUpDirtyUp then addOnce q (g3.getNodeIdByContentKey pr.2.id)
        else q) queueRest
      (g3, queue, errors, changedDeps, events)
    else
      let queue := (g2.incomingDepPairs d.value).foldl (fun q pr =>
        if pr.2.usedSymbolsUpDirtyUp then addOnce q (g2.getNodeIdByContentKey pr.2.id)
        else q) queueRest
      (g2, queue, errors, changedDeps, events)
  | _ =>
    match g.connectedTo queuedNodeId with
    | [] => (g, queueRest, errors, changedDeps, events)
    | c :: _ => (g, addOnce queueRest c, errors, changedDeps, events)

/-- The up-pass queue loop (part_001 736-787) with explicit fuel. -/
def propagateSymbolsUpLoop (db : Db) : Nat → AssetGraph → List NodeId →
    List (NodeId × List Diag) → List NodeId → List (NodeId × List Diag) →
    AssetGraph × List (NodeId × List Diag) × List NodeId × List (NodeId × List Diag)
  | 0, g, _, errors, changedDeps, events => (g, errors, changedDeps, events)
  | _ + 1, g, [], errors, changedDeps, events => (g, errors, changedDeps, events)
  | fuel + 1, g, q :: qs, errors, changedDeps, events =>
    let r := propagateSymbolsUpStep db g q qs errors changedDeps events
    propagateSymbolsUpLoop db fuel r.1 r.2.1 r.2.2.1 r.2.2.2.1 r.2.2.2.2

/-- part_001 626-790 `propagateSymbolsUp` (the visitor inlined as
`upVisit`).  `runFullPass` (660-664) compares against
`assetGraph.nodes.length`, which is `undefined` on a `Map`: the
comparison is `NaN < size`, always false, so the full-pass walk
(667-733) is dead code and is not modelled. -/
def propagateSymbolsUp (db : Db) (g : AssetGraph) (changedAssets : List NodeId)
    (changedDepsUsedSymbolsUpDirtyDown : List ContentKey)
    (previousErrors : Option (List (NodeId × List Diag))) (fuel : Nat) :
    AssetGraph × List (NodeId × List Diag) × List NodeId × List (NodeId × List Diag) :=
  let errors :=
    match previousErrors with
    | none => []
    | some pe => pe.filter (fun kv => g.hasNode kv.1)
  let seeds :=
    changedAssets.foldl addOnce
      (changedDepsUsedSymbolsUpDirtyDown.reverse.foldl
        (fun acc id => (getDependencyResolution g id).foldl addOnce acc) [])
  propagateSymbolsUpLoop db fuel g seeds errors [] []

structure PropResult where
  graph : AssetGraph
  errors : List (NodeId × List Diag)
  changedDeps : List NodeId
  upEvents : List (NodeId × List Diag)
deriving DecidableEq, Repr

def insertSortedUp (kv : SymbolId × Option Resolution) : UsedMap → UsedMap
  | [] => [kv]
  | h :: t => if kv.1 ≤ h.1 then kv :: h :: t else h :: insertSortedUp kv t

/-- `new Map([...m].sort(([a],[b]) => a - b))` (part_001 521-523): with
the duplicate-free keys of a JS Map, any comparison sort agrees with
insertion sort on the key order. -/
def sortByKey (m : UsedMap) : UsedMap := m.foldr insertSortedUp []

/-- One step of the final sort loop (part_001 520-524): rebuild the
changed dependency's `usedSymbolsUp` in ascending key order. -/
def sortChangedDep (gg : AssetGraph) (nid : NodeId) : AssetGraph :=
  match gg.getNodeD nid with
  | .dependency dd =>
    gg.updateNode nid (.dependency { dd with usedSymbolsUp := sortByKey dd.usedSymbolsUp })
  | _ => gg

/-- part_001 30-527 `propagateSymbols`: down pass, up pass, and the final
key sort of every changed dependency's `usedSymbolsUp` (520-524). -/
def propagateSymbols (db : Db) (g : AssetGraph)
    (changedAssetsPropagation : List ContentKey)
    (assetGroupsWithRemovedParents : List NodeId)
    (previousErrors : Option (List (NodeId × List Diag))) (fuel : Nat) : PropResult :=
  let changedAssets := changedAssetsPropagation.foldl
    (fun acc ck => addOnce acc (g.getNodeIdByContentKey ck)) []
  let down := propagateSymbolsDown db g changedAssets assetGroupsWithRemovedParents fuel
  let up := propagateSymbolsUp db down.1 changedAssets down.2 previousErrors fuel
  ⟨up.2.2.1.foldl sortChangedDep up.1, up.2.1, up.2.2.1, up.2.2.2⟩

/-! Concrete propagation scenario: root --E--> asset_group G --> asset A
--D--> (nothing).  `D` is a dangling ("excluded") dependency: it has no
outgoing edges, so no up-pass step ever clears its
`usedSymbolsUpDirtyDown` flag, and its stale `usedSymbolsUp` entries are
never rebuilt. -/

def c2db : Db where
  assets := fun v =>
    if v == 203 then
      { symbols := some [{ exported := 10, localSym := 60, isWeak := false, loc := none }],
        filePath := 7, sideEffects := false, bundleBehavior := .regular }
    else
      { symbols := none, filePath := 0, sideEffects := true, bundleBehavior := .regular }
  deps := fun v =>
    if v == 201 then
      { symbols := some [{ exported := 10, localSym := 50, isWeak := false, loc := none }],
        sourceAssetId := none, hasSymbols := true }
    else if v == 204 then
      { symbols := some [{ exported := 11, localSym := 51, isWeak := false, loc := none }],
        sourceAssetId := some 203, hasSymbols := true }
    else { symbols := none, sourceAssetId := none, hasSymbols := false }
  starSymbol := 90
  defaultSymbol := 91

/-- The entry dependency E (root → asset group), requesting symbol 10. -/
def c2depE : DepNodeData where
  id := 101
  value := 201
  usedSymbolsDown := [10]
  usedSymbolsUp := []
  usedSymbolsDownDirty := false
  usedSymbolsUpDirtyDown := false
  usedSymbolsUpDirtyUp := false
  excluded := false

/-- The dangling dependency D (child of asset A, no resolution). -/
def c2depD : DepNodeData where
  id := 104
  value := 204
  usedSymbolsDown := []
  usedSymbolsUp := []
  usedSymbolsDownDirty := false
  usedSymbolsUpDirtyDown := false
  usedSymbolsUpDirtyUp := false
  excluded := false

/-- The changed asset A, freshly (re)created with both dirty flags set. -/
def c2assetA : AssetNodeData where
  id := 103
  value := 203
  usedSymbols := []
  usedSymbolsDownDirty := true
  usedSymbolsUpDirty := true

def c2groupG : AssetGroupData where
  id := 102
  filePath := 7
  sideEffects := true
  usedSymbolsDownDirty := false

def c2graph : AssetGraph where
  nodes := [(0, .root 100), (1, .dependency c2depE), (2, .assetGroup c2groupG),
    (3, .asset c2assetA), (4, .dependency c2depD)]
  edges := [(0, 1, 1), (1, 2, 1), (2, 3, 1), (3, 4, 1)]
  rootNodeId := some 0

/-- Does the dependency at node `n` still have `usedSymbolsUpDirtyDown`
set? -/
def depDirtyDownAt (g : AssetGraph) (n : NodeId) : Bool :=
  match g.getNode n with
  | some (.dependency d) => d.usedSymbolsUpDirtyDown
  | _ => false

/-- The incremental engine's between-builds update after the entry stops
requesting symbol 10: the entry dependency's request set is emptied and
the changed asset is re-marked dirty. -/
def c3mutate (g : AssetGraph) : AssetGraph :=
  let g :=
    match g.getNode 1 with
    | some (.dependency d) => g.updateNode 1 (.dependency { d with usedSymbolsDown := [] })
    | _ => g
  match g.getNode 3 with
  | some (.asset a) =>
    g.updateNode 3 (.asset { a with usedSymbolsDownDirty := true, usedSymbolsUpDirty := true })
  | _ => g

/-- Claim C3's invariant at the dependency at node `n`: every
`usedSymbolsUp` key is in `usedSymbolsDown`. -/
def depDownSupUpAt (g : AssetGraph) (n : NodeId) : Bool :=
  match g.getNode n with
  | some (.dependency d) => d.usedSymbolsUp.all (fun kv => d.usedSymbolsDown.contains kv.1)
  | _ => true

/-- Key list of a `usedSymbolsUp` map is in ascending order. -/
def keysAscending : UsedMap → Bool
  | [] => true
  | [_] => true
  | a :: b :: t => decide (a.1 ≤ b.1) && keysAscending (b :: t)

/-- Every dependency of the graph with non-empty `usedSymbolsUp` has its
keys in ascending order — claim C4's invariant as a decidable check. -/
def allDepsUpSorted (g : AssetGraph) : Bool :=
  g.nodes.all (fun kv =>
    match kv.2 with
    | .dependency d => d.usedSymbolsUp.isEmpty || keysAscending d.usedSymbolsUp
    | _ => true)

/-- A dependency whose stale `usedSymbolsUp` keys are out of order. -/
def c4dep : DepNodeData where
  id := 301
  value := 401
  usedSymbolsDown := [5, 3]
  usedSymbolsUp := [(5, none), (3, none)]
  usedSymbolsDownDirty := false
  usedSymbolsUpDirtyDown := false
  usedSymbolsUpDirtyUp := false
  excluded := false

def c4graph : AssetGraph where
  nodes := [(0, .root 300), (1, .dependency c4dep)]
  edges := [(0, 1, 1)]
  rootNodeId := some 0

/-- `true` when `x` is at most the first key of `m` (vacuous for `[]`). -/
def headLeB (x : Nat) : UsedMap → Bool
  | [] => true
  | h :: _ => decide (x ≤ h.1)

/-- The changed entry dependency of the concrete scenario after run 1:
its rebuilt map, with the theorem certifying ascending keys. -/
def c4wdep : DepNodeData where
  id := 101
  value := 201
  usedSymbolsDown := [10]
  usedSymbolsUp := [(10, some ⟨103, some 10⟩)]
  usedSymbolsDownDirty := false
  usedSymbolsUpDirtyDown := false
  usedSymbolsUpDirtyUp := true
  excluded := false

/-- The node store is a JS `Map`, so its keys are unique. -/
def NodupKeys (g : AssetGraph) : Prop := (g.nodes.map (·.1)).Nodup

instance (g : AssetGraph) : Decidable (NodupKeys g) := by
  unfold NodupKeys
  infer_instance

/-- NodeId and node kind of every entry, in store order. -/
def AssetGraph.keyTags (g : AssetGraph) : List (NodeId × Nat) :=
  g.nodes.map (fun kv => (kv.1, kv.2.tag))

/-- The frame the propagation must preserve: edge list, root, and the
NodeId assignment (which ids exist, in which order, holding which kind
of node). -/
def Frame (g g' : AssetGraph) : Prop :=
  g'.edges = g.edges ∧ g'.rootNodeId = g.rootNodeId ∧ g'.keyTags = g.keyTags

/-- JS `Map.get`. -/
def lookupKey {β : Type} (m : List (Nat × β)) (k : Nat) : Option β :=
  (m.find? (·.1 == k)).map (·.2)

/-- The error map the claim predicts from the instrumented visit events:
hold the last visit's diagnostics (deleted when empty), or fall back to
the initial (pruned) map for unvisited nodes. -/
def ErrState (errors0 evs errors : List (NodeId × List Diag)) : Prop :=
  ∀ n : NodeId, lookupKey errors n =
    match (evs.filter (·.1 == n)).getLast? with
    | none => lookupKey errors0 n
    | some pr => if pr.2.isEmpty then none else some pr.2

/-- Every recorded visit happened at a node of the (frame-stable) graph. -/
def EventsLive (g0 : AssetGraph) (evs : List (NodeId × List Diag)) : Prop :=
  ∀ pr ∈ evs, g0.hasNode pr.1 = true

end Parcel

namespace Parcel

variable {Ctx : Type}

/-! ## Theorems about the flag setters and bfs -/

/-- C7: the `MutableAsset` setters for `sideEffects` and
`isBundleSplittable` only ever OR the flag bit into the asset's flag
word: for every prior flag word, every assigned boolean (including
`false`) and every non-zero mask, the corresponding getter returns `true`
after the assignment, and no previously set bit is ever cleared. -/
theorem mutableAsset_setters_only_or
    (mask flags m : Nat) (v : Bool) (hmask : mask ≠ 0) :
    getSideEffects mask (setSideEffects mask flags v) = true ∧
    getIsBundleSplittable mask (setIsBundleSplittable mask flags v) = true ∧
    (flags &&& m ≠ 0 → setSideEffects mask flags v &&& m ≠ 0) ∧
    setSideEffects mask flags v = flags ||| mask ∧
    setIsBundleSplittable mask flags v = flags ||| mask := by
  have hor : (flags ||| mask) &&& mask = mask := by
    apply Nat.eq_of_testBit_eq
    intro i
    simp [Nat.testBit_and, Nat.testBit_or, Bool.and_or_distrib_right]
  refine ⟨?_, ?_, ?_, rfl, rfl⟩
  · simp [getSideEffects, setSideEffects, hor, hmask]
  · simp [getIsBundleSplittable, setIsBundleSplittable, hor, hmask]
  · intro h hz
    apply h
    apply Nat.eq_of_testBit_eq
    intro i
    have hbit := congrArg (fun x => x.testBit i) hz
    simp only [setSideEffects, Nat.testBit_and, Nat.testBit_or, Nat.zero_testBit] at hbit
    simp only [Nat.testBit_and, Nat.zero_testBit]
    cases hf : flags.testBit i
    · simp [hf]
    · simp [hf] at hbit ⊢
      exact hbit

/-- C7 witness at mask 1, flags 2, value `false`. -/
theorem mutableAsset_setters_only_or_witness :
    getSideEffects 1 (setSideEffects 1 2 false) = true ∧
    getIsBundleSplittable 1 (setIsBundleSplittable 1 2 false) = true ∧
    ((2 : Nat) &&& 2 ≠ 0 → setSideEffects 1 2 false &&& 2 ≠ 0) ∧
    setSideEffects 1 2 false = 2 ||| 1 ∧
    setIsBundleSplittable 1 2 false = 2 ||| 1 :=
  mutableAsset_setters_only_or 1 2 2 false (by decide)

/-- C1: on the graph `0 → 1` with root 0 and the visitor `n == 1`,
`Graph.bfs` (which calls `visit(rootNodeId)` on line 1037) never sees the
visitor return true and yields `null`, while the traversal described by
the spec — visiting each dequeued node — returns node 1. -/
theorem bfs_visits_root_not_dequeued_node :
    Graph.bfs bfsBugGraph bfsBugVisit = some none ∧
    Graph.bfsPerClaim bfsBugGraph bfsBugVisit = some (some 1) := by
  constructor <;> rfl

theorem StopFree_nil : StopFree ([] : List (DfsEvent Ctx)) := by
  intro ev h
  simp at h

theorem StopFree_append {a b : List (DfsEvent Ctx)} (ha : StopFree a) (hb : StopFree b) :
    StopFree (a ++ b) := by
  intro ev h
  rcases List.mem_append.mp h with h' | h'
  · exact ha ev h'
  · exact hb ev h'

theorem RunOutcome_base {st : DfsState Ctx} (h : st.stopped = false) :
    RunOutcome st none st :=
  ⟨[], by simp, Or.inl ⟨h, StopFree_nil, rfl⟩⟩

/-- Prepending an already-recorded stop-free trace segment. -/
theorem RunOutcome_compose {st1 st2 st3 : DfsState Ctx} {res : Option Ctx}
    {Δ1 : List (DfsEvent Ctx)} (htr : st2.trace = st1.trace ++ Δ1) (hsf : StopFree Δ1)
    (h : RunOutcome st2 res st3) : RunOutcome st1 res st3 := by
  rcases h with ⟨Δ, htr2, hcase⟩
  refine ⟨Δ1 ++ Δ, by simp [htr2, htr], ?_⟩
  rcases hcase with ⟨h1, h2, h3⟩ | ⟨h1, Δ₀, e, hΔ, hsf0, hstop, hres⟩
  · exact Or.inl ⟨h1, StopFree_append hsf h2, h3⟩
  · exact Or.inr ⟨h1, Δ1 ++ Δ₀, e, by simp [hΔ], StopFree_append hsf hsf0, hstop, hres⟩

/-- The run outcome only looks at the starting trace. -/
theorem RunOutcome_congr {st1 st2 st3 : DfsState Ctx} {res : Option Ctx}
    (htr : st1.trace = st2.trace) (h : RunOutcome st1 res st3) : RunOutcome st2 res st3 := by
  rcases h with ⟨Δ, htr2, hcase⟩
  exact ⟨Δ, by rw [htr2, htr], hcase⟩

theorem dfsWalkChildren_outcome (vis : Visitor Ctx) (gc : Graph → Nat → List Nat) (fuel : Nat)
    (hwalk : ∀ n ctx (st : DfsState Ctx), st.stopped = false →
      RunOutcome st (dfsWalk vis gc fuel n ctx st).1 (dfsWalk vis gc fuel n ctx st).2)
    (cs : List Nat) (ctx : Option Ctx) (st : DfsState Ctx) (hstop : st.stopped = false) :
    RunOutcome st (dfsWalkChildren vis gc fuel cs ctx st).1
      (dfsWalkChildren vis gc fuel cs ctx st).2.1 ∧
    (dfsWalkChildren vis gc fuel cs ctx st).2.2 =
      (dfsWalkChildren vis gc fuel cs ctx st).2.1.stopped := by
  induction cs generalizing st with
  | nil =>
    rw [dfsWalkChildren]
    exact ⟨RunOutcome_base hstop, by simp [hstop]⟩
  | cons child rest ih =>
    simp only [dfsWalkChildren]
    split
    · exact ih st hstop
    · by_cases hs :
        (dfsWalk vis gc fuel child ctx { st with visited := addOnce st.visited child }).2.stopped
          = true
      · simp only [hs, if_true]
        exact ⟨RunOutcome_congr rfl (hwalk child ctx _ hstop), by simp [hs]⟩
      · have hs' :
            (dfsWalk vis gc fuel child ctx
              { st with visited := addOnce st.visited child }).2.stopped = false := by
          simpa using hs
        simp only [hs', Bool.false_eq_true, if_false]
        rcases hwalk child ctx { st with visited := addOnce st.visited child } hstop with
          ⟨Δ1, htr1, hcase1⟩
        rcases hcase1 with ⟨-, hsf1, -⟩ | ⟨h1, -⟩
        · have ihr := ih _ hs'
          exact ⟨RunOutcome_compose htr1 hsf1 ihr.1, ihr.2⟩
        · exact absurd h1 hs

/-- The common tail after a callback: `if (skipped) return; if (stopped)
return context;` else fall through with `undefined` (Asset.js 1014-1020,
and the analogous final returns). -/
theorem RunOutcome_exit_tail {st0 st3 : DfsState Ctx} (hstop3 : st3.stopped = false)
    {Δ2 : List (DfsEvent Ctx)} (htr2 : st3.trace = st0.trace ++ Δ2) (hsf2 : StopFree Δ2)
    (isExit : Bool) (n : Nat) (step : VisitStep Ctx) (ctx : Option Ctx) :
    RunOutcome st0
      (if (applyStep isExit n step ctx st3).2.skipped then
          ((none : Option Ctx), (applyStep isExit n step ctx st3).2)
        else if (applyStep isExit n step ctx st3).2.stopped then
          ((applyStep isExit n step ctx st3).1, (applyStep isExit n step ctx st3).2)
        else (none, (applyStep isExit n step ctx st3).2)).1
      (if (applyStep isExit n step ctx st3).2.skipped then
          ((none : Option Ctx), (applyStep isExit n step ctx st3).2)
        else if (applyStep isExit n step ctx st3).2.stopped then
          ((applyStep isExit n step ctx st3).1, (applyStep isExit n step ctx st3).2)
        else (none, (applyStep isExit n step ctx st3).2)).2 := by
  set ctx2 : Option Ctx := (match step.newContext with | none => ctx | some c => some c)
    with hctx2
  set e2 : DfsEvent Ctx := ⟨isExit, n, st3.graph, ctx2, step.stop, step.skip⟩ with he2
  have happ : applyStep isExit n step ctx st3 =
      (ctx2, { st3 with
                graph := step.graph,
                stopped := st3.stopped || step.stop,
                skipped := st3.skipped || step.skip,
                trace := st3.trace ++ [e2] }) := rfl
  rw [happ]
  by_cases hb : step.stop = true
  · by_cases hsk : (st3.skipped || step.skip) = true
    · simp only [hsk, if_true]
      exact ⟨Δ2 ++ [e2], by simp [htr2], Or.inr ⟨by simp [hstop3, hb], Δ2, e2, rfl, hsf2,
        by simp [he2, hb], by simp [hsk]⟩⟩
    · have hsk' : (st3.skipped || step.skip) = false := by simpa using hsk
      simp only [hsk', Bool.false_eq_true, if_false, hstop3, hb, Bool.false_or, if_true]
      exact ⟨Δ2 ++ [e2], by simp [htr2], Or.inr ⟨by simp [hstop3, hb], Δ2, e2, rfl, hsf2,
        by simp [he2, hb], by simp [hsk']⟩⟩
  · have hb' : step.stop = false := by simpa using hb
    have hsf : StopFree (Δ2 ++ [e2]) := by
      intro ev hev
      rcases List.mem_append.mp hev with h | h
      · exact hsf2 ev h
      · simp only [List.mem_singleton] at h
        subst h
        simp [he2, hb']
    by_cases hsk : (st3.skipped || step.skip) = true
    · simp only [hsk, if_true]
      exact ⟨Δ2 ++ [e2], by simp [htr2], Or.inl ⟨by simp [hstop3, hb'], hsf, rfl⟩⟩
    · have hsk' : (st3.skipped || step.skip) = false := by simpa using hsk
      simp only [hsk', Bool.false_eq_true, if_false, hstop3, hb', Bool.false_or]
      exact ⟨Δ2 ++ [e2], by simp [htr2], Or.inl ⟨by simp [hstop3, hb'], hsf, rfl⟩⟩

theorem dfsWalkRest_outcome (vis : Visitor Ctx) (gc : Graph → Nat → List Nat) (fuel : Nat)
    (hwalk : ∀ n ctx (st : DfsState Ctx), st.stopped = false →
      RunOutcome st (dfsWalk vis gc fuel n ctx st).1 (dfsWalk vis gc fuel n ctx st).2)
    (n : Nat) (ctx : Option Ctx) (st : DfsState Ctx) (hstop : st.stopped = false) :
    RunOutcome st (dfsWalkRest vis gc fuel n ctx st).1 (dfsWalkRest vis gc fuel n ctx st).2 := by
  obtain ⟨hco, hearly⟩ := dfsWalkChildren_outcome vis gc fuel hwalk (gc st.graph n) ctx st hstop
  simp only [dfsWalkRest]
  split
  next heq => exact hco
  next heq =>
    have hstop3 : (dfsWalkChildren vis gc fuel (gc st.graph n) ctx st).2.1.stopped = false := by
      rw [← hearly]
      simpa using heq
    rcases hco with ⟨Δ2, htr2, hcase⟩
    rcases hcase with ⟨-, hsf2, -⟩ | ⟨hbad, -⟩
    swap
    · rw [hstop3] at hbad
      cases hbad
    rcases hexit : vis.exit with _ | exitF
    · simp only [hexit, hstop3]
      by_cases hsk : (dfsWalkChildren vis gc fuel (gc st.graph n) ctx st).2.1.skipped = true
      · simp only [hsk, if_true]
        exact ⟨Δ2, htr2, Or.inl ⟨hstop3, hsf2, rfl⟩⟩
      · have hsk' : (dfsWalkChildren vis gc fuel (gc st.graph n) ctx st).2.1.skipped = false := by
          simpa using hsk
        simp only [hsk', Bool.false_eq_true, if_false]
        exact ⟨Δ2, htr2, Or.inl ⟨hstop3, hsf2, rfl⟩⟩
    · simp only [hexit]
      by_cases hnode :
          (dfsWalkChildren vis gc fuel (gc st.graph n) ctx st).2.1.graph.hasNode n = true
      · simp only [hnode, if_true]
        exact RunOutcome_exit_tail hstop3 htr2 hsf2 true n _ ctx
      · have hnode' :
            (dfsWalkChildren vis gc fuel (gc st.graph n) ctx st).2.1.graph.hasNode n = false := by
          simpa using hnode
        simp only [hnode', Bool.false_eq_true, if_false, hstop3]
        by_cases hsk : (dfsWalkChildren vis gc fuel (gc st.graph n) ctx st).2.1.skipped = true
        · simp only [hsk, if_true]
          exact ⟨Δ2, htr2, Or.inl ⟨hstop3, hsf2, rfl⟩⟩
        · have hsk' :
              (dfsWalkChildren vis gc fuel (gc st.graph n) ctx st).2.1.skipped = false := by
            simpa using hsk
          simp only [hsk', Bool.false_eq_true, if_false]
          exact ⟨Δ2, htr2, Or.inl ⟨hstop3, hsf2, rfl⟩⟩

/-- The enter-phase analogue of `RunOutcome_exit_tail`: the state after
`applyStep` for the enter callback, followed by the two early returns or
the (already analysed) rest of the walk. -/
theorem dfsWalk_outcome (vis : Visitor Ctx) (gc : Graph → Nat → List Nat) :
    ∀ (fuel : Nat) (n : Nat) (ctx : Option Ctx) (st : DfsState Ctx), st.stopped = false →
      RunOutcome st (dfsWalk vis gc fuel n ctx st).1 (dfsWalk vis gc fuel n ctx st).2 := by
  intro fuel
  induction fuel with
  | zero =>
    intro n ctx st hstop
    rw [dfsWalk]
    exact RunOutcome_base hstop
  | succ fuel ih =>
    intro n ctx st hstop
    simp only [dfsWalk]
    split
    next => exact RunOutcome_base hstop
    next hnode =>
      rcases henter : vis.enter with _ | enter
      · simp only [henter]
        simp only [Bool.false_eq_true, if_false, hstop]
        exact RunOutcome_congr rfl
          (dfsWalkRest_outcome vis gc fuel ih n ctx _ rfl)
      · simp only [henter]
        set st1 : DfsState Ctx := { st with visited := addOnce st.visited n, skipped := false }
          with hst1def
        set step := enter n ctx st1.graph with hstepdef
        set ctx2 : Option Ctx := (match step.newContext with | none => ctx | some c => some c)
          with hctx2
        set e1 : DfsEvent Ctx := ⟨false, n, st1.graph, ctx2, step.stop, step.skip⟩ with he1
        have happ : applyStep false n step ctx st1 =
            (ctx2, { st1 with
                      graph := step.graph,
                      stopped := st1.stopped || step.stop,
                      skipped := st1.skipped || step.skip,
                      trace := st1.trace ++ [e1] }) := rfl
        rw [happ]
        set st2 : DfsState Ctx := { st1 with
          graph := step.graph,
          stopped := st1.stopped || step.stop,
          skipped := st1.skipped || step.skip,
          trace := st1.trace ++ [e1] } with hst2def
        have h2tr : st2.trace = st.trace ++ [e1] := rfl
        have h2stop : st2.stopped = step.stop := by
          simp [hst2def, hst1def, hstop]
        have h2skip : st2.skipped = step.skip := by
          simp [hst2def, hst1def]
        split
        next hskC =>
          have h2sk : st2.skipped = true := hskC
          by_cases hb : step.stop = true
          · exact ⟨[e1], h2tr, Or.inr ⟨h2stop.trans hb, [], e1, rfl, StopFree_nil,
              by simp [he1, hb], by simp [h2skip.symm.trans h2sk]⟩⟩
          · have hb' : step.stop = false := by simpa using hb
            refine ⟨[e1], h2tr, Or.inl ⟨h2stop.trans hb', ?_, rfl⟩⟩
            intro ev hev
            simp only [List.mem_singleton] at hev
            subst hev
            simp [he1, hb']
        next hskC =>
          have h2sk : st2.skipped = false := by
            have : ¬ st2.skipped = true := hskC
            simpa using this
          split
          next hstC =>
            have h2st : st2.stopped = true := hstC
            have hb : step.stop = true := h2stop.symm.trans h2st
            exact ⟨[e1], h2tr, Or.inr ⟨h2st, [], e1, rfl, StopFree_nil,
              by simp [he1, hb], by simp [h2skip.symm.trans h2sk, he1]⟩⟩
          next hstC =>
            have h2st : st2.stopped = false := by
              have : ¬ st2.stopped = true := hstC
              simpa using this
            have hb' : step.stop = false := h2stop.symm.trans h2st
            have hsf1 : StopFree [e1] := by
              intro ev hev
              simp only [List.mem_singleton] at hev
              subst hev
              simp [he1, hb']
            exact @RunOutcome_compose _ st st2 _ _ [e1] h2tr hsf1
              (dfsWalkRest_outcome vis gc fuel ih n ctx2 st2 h2st)

/-- C6 (amended): once a visitor callback calls `actions.stop()`, the
traversal returns immediately — the stopping callback is the last event
of the trace, so no pending exit callback of the stopped node or of any
node still on the recursion stack runs afterwards — and the returned
value is the context current at that point, except that `undefined` is
returned when the traversal's skip flag is set at that moment (the
stopping callback also called `skipChildren()`, or a just-finished child
subtree had been skipped before an exit callback stopped). -/
theorem dfs_stop_aborts {Ctx : Type} (g : Graph) (vis : Visitor Ctx)
    (gc : Graph → Nat → List Nat) (start : Option Nat)
    (res : Option Ctx) (st : DfsState Ctx)
    (hrun : g.dfs vis gc start = some (res, st))
    (i : Nat) (hi : i < st.trace.length) (hstop : (st.trace.get ⟨i, hi⟩).stop = true) :
    i + 1 = st.trace.length ∧
    res = (if st.skipped then none else (st.trace.get ⟨i, hi⟩).ctxAfter) := by
  have hout : ∃ s0 : Nat, (dfsWalk vis gc (g.nodes.length + 1) s0 none
      ⟨g, [], false, false, []⟩) = (res, st) := by
    unfold Graph.dfs at hrun
    rcases hs : (start.orElse fun _ => g.rootNodeId) with _ | s0
    · rw [hs] at hrun
      cases hrun
    · rw [hs] at hrun
      by_cases hn : g.hasNode s0 = true
      · refine ⟨s0, ?_⟩
        simp only [hn, not_true, if_false, if_neg, Option.some.injEq] at hrun
        · exact hrun
      · simp [hn] at hrun
  rcases hout with ⟨s0, heq⟩
  have houtcome := dfsWalk_outcome vis gc (g.nodes.length + 1) s0 none
    ⟨g, [], false, false, []⟩ rfl
  rw [heq] at houtcome
  rcases houtcome with ⟨Δ, htr, hcase⟩
  simp only [List.nil_append] at htr
  obtain ⟨gr, vv, so, sk, tr⟩ := st
  simp only at htr hi hstop ⊢
  subst htr
  rcases hcase with ⟨-, hsf, -⟩ | ⟨hstopped, Δ₀, e, hΔ, hsf0, hestop, hres⟩
  · have hfree := hsf _ (List.get_mem tr i hi)
    rw [hstop] at hfree
    cases hfree
  · subst hΔ
    have hlen : i < Δ₀.length + 1 := by simpa using hi
    rcases Nat.lt_or_ge i Δ₀.length with hlt | hge
    · exfalso
      have hmem : (Δ₀ ++ [e]).get ⟨i, hi⟩ ∈ Δ₀ := by
        rw [List.get_eq_getElem, List.getElem_append_left hlt]
        exact List.getElem_mem hlt
      have hfree := hsf0 _ hmem
      rw [hstop] at hfree
      cases hfree
    · have hieq : i = Δ₀.length := Nat.le_antisymm (Nat.lt_succ_iff.mp hlen) hge
      constructor
      · simp [hieq]
      · have hgete : (Δ₀ ++ [e]).get ⟨i, hi⟩ = e := by
          subst hieq
          simp
        rw [hgete]
        exact hres

/-- C6 counterexample: on the one-node graph, with an enter callback that
returns context 5 and calls both `skipChildren()` and `stop()`, the event
trace records the stop with current context `some 5`, yet `dfs` returns
`undefined` (`none`) — not the current context value as the claim states. -/
theorem dfs_stop_context_counterexample :
    Graph.dfs oneNodeGraph stopSkipVisitor dfsChildrenDefault none =
      some (none,
        { graph := oneNodeGraph
          visited := [0]
          stopped := true
          skipped := true
          trace := [{ isExit := false
                      node := 0
                      graphAtCall := oneNodeGraph
                      ctxAfter := some 5
                      stop := true
                      skip := true }] }) ∧
    ((none : Option Nat) ≠ some 5) := by
  refine ⟨?_, by simp⟩
  simp [Graph.dfs, dfsWalk, applyStep, stopSkipVisitor, oneNodeGraph, Graph.hasNode, addOnce]

/-- C6 witness: a concrete stop-only run, with the theorem's hypotheses
discharged by evaluation. -/
theorem dfs_stop_aborts_witness :
    0 + 1 = dfsStopWitnessState.trace.length ∧
    (some 7 : Option Nat) =
      (if dfsStopWitnessState.skipped then none
       else (dfsStopWitnessState.trace.get ⟨0, by simp [dfsStopWitnessState]⟩).ctxAfter) :=
  dfs_stop_aborts oneNodeGraph stopOnlyVisitor dfsChildrenDefault none (some 7)
    dfsStopWitnessState
    (by simp [Graph.dfs, dfsWalk, applyStep, stopOnlyVisitor, oneNodeGraph, Graph.hasNode,
      dfsStopWitnessState, addOnce])
    0 (by simp [dfsStopWitnessState]) (by simp [dfsStopWitnessState])

theorem TraceLive_append {a b : List (DfsEvent Ctx)} (ha : TraceLive a) (hb : TraceLive b) :
    TraceLive (a ++ b) := by
  intro ev h
  rcases List.mem_append.mp h with h' | h'
  · exact ha ev h'
  · exact hb ev h'

theorem dfsWalkChildren_live (vis : Visitor Ctx) (gc : Graph → Nat → List Nat) (fuel : Nat)
    (hwalk : ∀ n ctx (st : DfsState Ctx), TraceLive st.trace →
      TraceLive (dfsWalk vis gc fuel n ctx st).2.trace)
    (cs : List Nat) (ctx : Option Ctx) (st : DfsState Ctx) (hlive : TraceLive st.trace) :
    TraceLive (dfsWalkChildren vis gc fuel cs ctx st).2.1.trace := by
  induction cs generalizing st with
  | nil =>
    rw [dfsWalkChildren]
    exact hlive
  | cons child rest ih =>
    simp only [dfsWalkChildren]
    split
    · exact ih st hlive
    · have hw := hwalk child ctx { st with visited := addOnce st.visited child } hlive
      split
      · exact hw
      · exact ih _ hw

theorem dfsWalkRest_live (vis : Visitor Ctx) (gc : Graph → Nat → List Nat) (fuel : Nat)
    (hwalk : ∀ n ctx (st : DfsState Ctx), TraceLive st.trace →
      TraceLive (dfsWalk vis gc fuel n ctx st).2.trace)
    (n : Nat) (ctx : Option Ctx) (st : DfsState Ctx) (hlive : TraceLive st.trace) :
    TraceLive (dfsWalkRest vis gc fuel n ctx st).2.trace := by
  have hch := dfsWalkChildren_live vis gc fuel hwalk (gc st.graph n) ctx st hlive
  simp only [dfsWalkRest]
  split
  · exact hch
  · rcases hexit : vis.exit with _ | exitF
    · simp only [hexit]
      split
      · exact hch
      · split
        · exact hch
        · exact hch
    · simp only [hexit]
      by_cases hnode :
          (dfsWalkChildren vis gc fuel (gc st.graph n) ctx st).2.1.graph.hasNode n = true
      · simp only [hnode, if_true]
        have happlive : TraceLive (applyStep true n
            (exitF n ctx (dfsWalkChildren vis gc fuel (gc st.graph n) ctx st).2.1.graph) ctx
            (dfsWalkChildren vis gc fuel (gc st.graph n) ctx st).2.1).2.trace := by
          simp only [applyStep]
          refine TraceLive_append hch ?_
          intro ev hev
          simp only [List.mem_singleton] at hev
          subst hev
          exact hnode
        split
        · exact happlive
        · split
          · exact happlive
          · exact happlive
      · have hnode' :
            (dfsWalkChildren vis gc fuel (gc st.graph n) ctx st).2.1.graph.hasNode n = false := by
          simpa using hnode
        simp only [hnode', Bool.false_eq_true, if_false]
        split
        · exact hch
        · split
          · exact hch
          · exact hch

theorem dfsWalk_live (vis : Visitor Ctx) (gc : Graph → Nat → List Nat) :
    ∀ (fuel : Nat) (n : Nat) (ctx : Option Ctx) (st : DfsState Ctx), TraceLive st.trace →
      TraceLive (dfsWalk vis gc fuel n ctx st).2.trace := by
  intro fuel
  induction fuel with
  | zero =>
    intro n ctx st hlive
    rw [dfsWalk]
    exact hlive
  | succ fuel ih =>
    intro n ctx st hlive
    simp only [dfsWalk]
    split
    next => exact hlive
    next hnode =>
      have hnode' : st.graph.hasNode n = true := by
        by_cases h : st.graph.hasNode n = true
        · exact h
        · exact absurd (by simpa using h) hnode
      rcases henter : vis.enter with _ | enter
      · simp only [henter]
        split
        · exact hlive
        · split
          · exact hlive
          · exact dfsWalkRest_live vis gc fuel ih n ctx _ hlive
      · simp only [henter]
        have happlive : TraceLive
            (applyStep false n (enter n ctx st.graph) ctx
              { st with visited := addOnce st.visited n, skipped := false }).2.trace := by
          simp only [applyStep]
          refine TraceLive_append hlive ?_
          intro ev hev
          simp only [List.mem_singleton] at hev
          subst hev
          exact hnode'
        split
        · exact happlive
        · split
          · exact happlive
          · exact dfsWalkRest_live vis gc fuel ih n _ _ happlive

/-- C10: during a `Graph.dfs` traversal every visitor callback — enter or
exit — is invoked only on a node that is present in the (possibly
visitor-mutated) graph at the moment of the call; in particular a node
removed after its enter callback and before its exit callback receives no
exit callback.  Moreover `walk` on a node that is not present returns
immediately, unchanged, without invoking its enter callback. -/
theorem dfs_respects_node_removal {Ctx : Type} (g : Graph) (vis : Visitor Ctx)
    (gc : Graph → Nat → List Nat) (start : Option Nat) (res : Option Ctx) (st : DfsState Ctx)
    (hrun : g.dfs vis gc start = some (res, st)) :
    (∀ ev ∈ st.trace, ev.graphAtCall.hasNode ev.node = true) ∧
    (∀ (fuel : Nat) (n : Nat) (ctx : Option Ctx) (st0 : DfsState Ctx),
      st0.graph.hasNode n = false → dfsWalk vis gc fuel n ctx st0 = (none, st0)) := by
  constructor
  · have hout : ∃ s0 : Nat, (dfsWalk vis gc (g.nodes.length + 1) s0 none
        ⟨g, [], false, false, []⟩) = (res, st) := by
      unfold Graph.dfs at hrun
      rcases hs : (start.orElse fun _ => g.rootNodeId) with _ | s0
      · rw [hs] at hrun
        cases hrun
      · rw [hs] at hrun
        by_cases hn : g.hasNode s0 = true
        · refine ⟨s0, ?_⟩
          simp only [hn, not_true, if_false, if_neg, Option.some.injEq] at hrun
          · exact hrun
        · simp [hn] at hrun
    rcases hout with ⟨s0, heq⟩
    have hl := dfsWalk_live vis gc (g.nodes.length + 1) s0 none
      ⟨g, [], false, false, []⟩ (by intro ev hev; simp at hev)
    rw [heq] at hl
    exact hl
  · intro fuel n ctx st0 habsent
    cases fuel with
    | zero => rw [dfsWalk]
    | succ fuel =>
      rw [dfsWalk]
      simp [habsent]

/-- C10 witness: on the graph `0 → 1`, the enter callback of node 0
removes node 1; the run delivers no callback for node 1 and both
conclusions of the theorem hold at this concrete input. -/
theorem dfs_respects_node_removal_witness :
    ((∀ ev ∈ dfsRemovalWitnessState.trace, ev.graphAtCall.hasNode ev.node = true) ∧
     (∀ (fuel : Nat) (n : Nat) (ctx : Option Nat) (st0 : DfsState Nat),
       st0.graph.hasNode n = false →
       dfsWalk removeNodeOneVisitor dfsChildrenDefault fuel n ctx st0 = (none, st0))) :=
  dfs_respects_node_removal bfsBugGraph removeNodeOneVisitor dfsChildrenDefault none
    none dfsRemovalWitnessState
    (by simp [Graph.dfs, dfsWalk, dfsWalkRest, dfsWalkChildren, applyStep,
      removeNodeOneVisitor, bfsBugGraph, graphWithoutOne, Graph.hasNode, addOnce,
      dfsRemovalWitnessState, dfsChildrenDefault, Graph.connectedFrom, firstOcc,
      TypeSpec.matches])

theorem mem_firstOcc {x : Nat} : ∀ {l : List Nat}, x ∈ firstOcc l ↔ x ∈ l := by
  intro l
  induction l with
  | nil => simp [firstOcc]
  | cons a as ih =>
    simp only [firstOcc, List.mem_cons, List.mem_filter]
    constructor
    · rintro (rfl | ⟨h, -⟩)
      · exact Or.inl rfl
      · exact Or.inr (ih.mp h)
    · rintro (rfl | h)
      · exact Or.inl rfl
      · by_cases hxa : x = a
        · exact Or.inl hxa
        · exact Or.inr ⟨ih.mpr h, by simpa using hxa⟩

theorem connectedTo_all_mem {g : Graph} {n p : Nat} :
    p ∈ g.connectedTo n .all ↔ edgeAny g p n := by
  unfold Graph.connectedTo edgeAny
  rw [mem_firstOcc]
  simp only [List.mem_map, List.mem_filter]
  constructor
  · rintro ⟨e, ⟨he, hcond⟩, rfl⟩
    simp only [Bool.and_eq_true, beq_iff_eq, TypeSpec.matches] at hcond
    refine ⟨e.2.2, ?_⟩
    have : e = (e.1, n, e.2.2) := by
      obtain ⟨a, b, c⟩ := e
      simp only at hcond ⊢
      rw [hcond.1]
    rw [← this]
    exact he
  · rintro ⟨ty, hty⟩
    exact ⟨(p, n, ty), ⟨hty, by simp [TypeSpec.matches]⟩, rfl⟩

theorem GoodAnc_mono {g : Graph} {root x : Nat} {V V' : Finset Nat} (hVV : V ⊆ V')
    (h : GoodAnc g root x V) : GoodAnc g root x V' :=
  ⟨h.1, fun p hp => hVV (h.2 p hp)⟩

theorem GoodAnc_of_not_node {g : Graph} {root x : Nat} {V : Finset Nat}
    (hwf : g.WF) (hroot : root ∈ g.nodes) (hx : x ∉ g.nodes) : GoodAnc g root x V := by
  refine ⟨?_, ?_⟩
  · intro hxr
    exact hx (hxr ▸ hroot)
  · rintro p ⟨ty, hty⟩
    exact absurd (hwf _ hty).2 hx

theorem nodes_subset_searchUniv {g : Graph} {x : Nat} (hx : x ∈ g.nodes) :
    x ∈ g.searchUniv := by
  unfold Graph.searchUniv
  exact Finset.mem_union_left _ (Finset.mem_union_left _ (List.mem_toFinset.mpr hx))

theorem card_sdiff_mono_of_subset {u s t : Finset Nat} (h : s ⊆ t) :
    (u \ t).card ≤ (u \ s).card :=
  Finset.card_le_card (Finset.sdiff_subset_sdiff (le_refl u) h)

theorem card_sdiff_insert_lt {u s : Finset Nat} {c : Nat} (hcu : c ∈ u) (hcs : c ∉ s) :
    (u \ insert c s).card < (u \ s).card := by
  have hc : c ∈ u \ s := Finset.mem_sdiff.mpr ⟨hcu, hcs⟩
  calc (u \ insert c s).card = ((u \ s).erase c).card := by rw [Finset.sdiff_insert]
    _ < (u \ s).card := Finset.card_erase_lt_of_mem hc

/-- Post-conditions of a failed ancestor search: the visited set only
grows, every newly visited node is fully explored (all its parents are
visited and it is not the root), and a walked node that is present in the
graph ends up visited and fully explored; for the child loop, every
listed child ends up visited. -/
theorem anc_false_post (g : Graph) (u : Finset Nat) (root : Nat)
    (hwf : g.WF) (hroot : root ∈ g.nodes) (hu : ∀ x ∈ g.nodes, x ∈ u) :
    ∀ k : Nat,
      (∀ (cs : List Nat) (visited v' : Finset Nat), (u \ visited).card ≤ k →
        ancList g u root cs visited = (false, v') →
        visited ⊆ v' ∧ (∀ x ∈ v', x ∉ visited → GoodAnc g root x v') ∧ ∀ c ∈ cs, c ∈ v') ∧
      (∀ (n : Nat) (visited v' : Finset Nat), (u \ visited).card ≤ k →
        ancWalk g u root n visited = (false, v') →
        visited ⊆ v' ∧ (∀ x ∈ v', x ∉ visited → GoodAnc g root x v') ∧
        (n ∈ g.nodes → n ∈ v' ∧ GoodAnc g root n v')) := by
  intro k
  induction k using Nat.strong_induction_on with
  | _ k IH =>
  have hL : ∀ (cs : List Nat) (visited v' : Finset Nat), (u \ visited).card ≤ k →
      ancList g u root cs visited = (false, v') →
      visited ⊆ v' ∧ (∀ x ∈ v', x ∉ visited → GoodAnc g root x v') ∧ ∀ c ∈ cs, c ∈ v' := by
    intro cs
    induction cs with
    | nil =>
      intro visited v' hk h
      rw [ancList] at h
      obtain ⟨-, rfl⟩ : false = false ∧ visited = v' := by
        simpa [Prod.ext_iff] using h
      exact ⟨Finset.Subset.refl _, fun x hx hnx => absurd hx hnx, by simp⟩
    | cons c rest ihRest =>
      intro visited v' hk h
      simp only [ancList] at h
      by_cases hcv : c ∈ visited
      · rw [if_pos hcv] at h
        obtain ⟨ha, hb, hc⟩ := ihRest visited v' hk h
        refine ⟨ha, hb, fun d hd => ?_⟩
        rcases List.mem_cons.mp hd with rfl | hd'
        · exact ha hcv
        · exact hc d hd'
      · rw [if_neg hcv] at h
        by_cases hcu : c ∈ u
        · rw [dif_pos hcu] at h
          rcases hb1 : (ancWalk g u root c (insert c visited)).1 with _ | _
          · rw [if_neg (by rw [hb1]; simp)] at h
            have hjk : (u \ insert c visited).card < k :=
              lt_of_lt_of_le (card_sdiff_insert_lt hcu hcv) hk
            have hwalkEq : ancWalk g u root c (insert c visited) =
                (false, (ancWalk g u root c (insert c visited)).2) := by
              rw [← hb1]
            obtain ⟨wa, wb, wc⟩ := (IH _ hjk).2 c (insert c visited) _ (le_refl _) hwalkEq
            have hj2 : (u \ ((ancWalk g u root c (insert c visited)).2 ∪ insert c visited)).card
                < k :=
              lt_of_le_of_lt
                (card_sdiff_mono_of_subset (Finset.subset_union_right)) hjk
            obtain ⟨ra, rb, rc⟩ := (IH _ hj2).1 rest _ v' (le_refl _) h
            have hsub1 : insert c visited ⊆ v' :=
              fun x hx => ra (Finset.mem_union_right _ hx)
            have hsubr2 : (ancWalk g u root c (insert c visited)).2 ⊆ v' :=
              fun x hx => ra (Finset.mem_union_left _ hx)
            have hgoodc : GoodAnc g root c v' := by
              by_cases hcn : c ∈ g.nodes
              · exact GoodAnc_mono hsubr2 (wc hcn).2
              · exact GoodAnc_of_not_node hwf hroot hcn
            refine ⟨fun x hx => hsub1 (Finset.mem_insert_of_mem hx), ?_, ?_⟩
            · intro x hx hxnv
              by_cases hx2 : x ∈ (ancWalk g u root c (insert c visited)).2 ∪ insert c visited
              · rcases Finset.mem_union.mp hx2 with hxr | hxi
                · by_cases hxi2 : x ∈ insert c visited
                  · rcases Finset.mem_insert.mp hxi2 with rfl | hxv
                    · exact hgoodc
                    · exact absurd hxv hxnv
                  · exact GoodAnc_mono hsubr2 (wb x hxr hxi2)
                · rcases Finset.mem_insert.mp hxi with rfl | hxv
                  · exact hgoodc
                  · exact absurd hxv hxnv
              · exact rb x hx hx2
            · intro d hd
              rcases List.mem_cons.mp hd with rfl | hd'
              · exact hsub1 (Finset.mem_insert_self _ _)
              · exact rc d hd'
          · rw [if_pos (by rw [hb1])] at h
            simp at h
        · rw [dif_neg hcu] at h
          have hcn : c ∉ g.nodes := fun hcn => hcu (hu c hcn)
          obtain ⟨ra, rb, rc⟩ := ihRest (insert c visited) v'
            (le_trans (card_sdiff_mono_of_subset (Finset.subset_insert _ _)) hk) h
          have hsub1 : insert c visited ⊆ v' := ra
          refine ⟨fun x hx => hsub1 (Finset.mem_insert_of_mem hx), ?_, ?_⟩
          · intro x hx hxnv
            by_cases hxi : x ∈ insert c visited
            · rcases Finset.mem_insert.mp hxi with rfl | hxv
              · exact GoodAnc_of_not_node hwf hroot hcn
              · exact absurd hxv hxnv
            · exact rb x hx hxi
          · intro d hd
            rcases List.mem_cons.mp hd with rfl | hd'
            · exact hsub1 (Finset.mem_insert_self _ _)
            · exact rc d hd'
  have hW : ∀ (n : Nat) (visited v' : Finset Nat), (u \ visited).card ≤ k →
      ancWalk g u root n visited = (false, v') →
      visited ⊆ v' ∧ (∀ x ∈ v', x ∉ visited → GoodAnc g root x v') ∧
      (n ∈ g.nodes → n ∈ v' ∧ GoodAnc g root n v') := by
    intro n visited v' hk h
    rw [ancWalk] at h
    by_cases hn : g.hasNode n = true
    · rw [if_neg (by simpa using hn)] at h
      by_cases hnr : n = root
      · rw [if_pos hnr] at h
        simp at h
      · rw [if_neg hnr] at h
        obtain ⟨la, lb, lc⟩ := hL (g.connectedTo n .all) (insert n visited) v'
          (le_trans (card_sdiff_mono_of_subset (Finset.subset_insert _ _)) hk) h
        have hgoodn : GoodAnc g root n v' := by
          refine ⟨hnr, fun p hp => ?_⟩
          exact lc p (connectedTo_all_mem.mpr hp)
        refine ⟨fun x hx => la (Finset.mem_insert_of_mem hx), ?_, ?_⟩
        · intro x hx hxnv
          by_cases hxi : x ∈ insert n visited
          · rcases Finset.mem_insert.mp hxi with rfl | hxv
            · exact hgoodn
            · exact absurd hxv hxnv
          · exact lb x hx hxi
        · intro _
          exact ⟨la (Finset.mem_insert_self _ _), hgoodn⟩
    · rw [if_pos (by simpa using hn)] at h
      obtain ⟨-, rfl⟩ : false = false ∧ visited = v' := by
        simpa [Prod.ext_iff] using h
      refine ⟨Finset.Subset.refl _, fun x hx hnx => absurd hx hnx, fun hnn => ?_⟩
      exact absurd (by simpa [Graph.hasNode] using hnn) hn
  exact ⟨hL, hW⟩

/-- A successful ancestor search means the root reaches the walked node. -/
theorem anc_true_sound (g : Graph) (u : Finset Nat) (root : Nat) :
    ∀ k : Nat,
      (∀ (cs : List Nat) (visited v' : Finset Nat), (u \ visited).card ≤ k →
        ancList g u root cs visited = (true, v') →
        ∃ c ∈ cs, Relation.ReflTransGen (edgeAny g) root c) ∧
      (∀ (n : Nat) (visited v' : Finset Nat), (u \ visited).card ≤ k →
        ancWalk g u root n visited = (true, v') →
        Relation.ReflTransGen (edgeAny g) root n) := by
  intro k
  induction k using Nat.strong_induction_on with
  | _ k IH =>
  have hL : ∀ (cs : List Nat) (visited v' : Finset Nat), (u \ visited).card ≤ k →
      ancList g u root cs visited = (true, v') →
      ∃ c ∈ cs, Relation.ReflTransGen (edgeAny g) root c := by
    intro cs
    induction cs with
    | nil =>
      intro visited v' hk h
      rw [ancList] at h
      simp at h
    | cons c rest ihRest =>
      intro visited v' hk h
      simp only [ancList] at h
      by_cases hcv : c ∈ visited
      · rw [if_pos hcv] at h
        obtain ⟨d, hd, hrt⟩ := ihRest visited v' hk h
        exact ⟨d, List.mem_cons_of_mem _ hd, hrt⟩
      · rw [if_neg hcv] at h
        by_cases hcu : c ∈ u
        · rw [dif_pos hcu] at h
          rcases hb1 : (ancWalk g u root c (insert c visited)).1 with _ | _
          · rw [if_neg (by rw [hb1]; simp)] at h
            have hjk : (u \ insert c visited).card < k :=
              lt_of_lt_of_le (card_sdiff_insert_lt hcu hcv) hk
            have hj2 : (u \ ((ancWalk g u root c (insert c visited)).2 ∪ insert c visited)).card
                < k :=
              lt_of_le_of_lt
                (card_sdiff_mono_of_subset (Finset.subset_union_right)) hjk
            obtain ⟨d, hd, hrt⟩ := (IH _ hj2).1 rest _ v' (le_refl _) h
            exact ⟨d, List.mem_cons_of_mem _ hd, hrt⟩
          · rw [if_pos (by rw [hb1])] at h
            have hjk : (u \ insert c visited).card < k :=
              lt_of_lt_of_le (card_sdiff_insert_lt hcu hcv) hk
            have hwalkEq : ancWalk g u root c (insert c visited) =
                (true, (ancWalk g u root c (insert c visited)).2) := by
              rw [← hb1]
            have hrt := (IH _ hjk).2 c (insert c visited) _ (le_refl _) hwalkEq
            exact ⟨c, List.mem_cons_self _ _, hrt⟩
        · rw [dif_neg hcu] at h
          obtain ⟨d, hd, hrt⟩ := ihRest (insert c visited) v'
            (le_trans (card_sdiff_mono_of_subset (Finset.subset_insert _ _)) hk) h
          exact ⟨d, List.mem_cons_of_mem _ hd, hrt⟩
  have hW : ∀ (n : Nat) (visited v' : Finset Nat), (u \ visited).card ≤ k →
      ancWalk g u root n visited = (true, v') →
      Relation.ReflTransGen (edgeAny g) root n := by
    intro n visited v' hk h
    rw [ancWalk] at h
    by_cases hn : g.hasNode n = true
    · rw [if_neg (by simpa using hn)] at h
      by_cases hnr : n = root
      · subst hnr
        exact Relation.ReflTransGen.refl
      · rw [if_neg hnr] at h
        obtain ⟨c, hc, hrt⟩ := hL (g.connectedTo n .all) (insert n visited) v'
          (le_trans (card_sdiff_mono_of_subset (Finset.subset_insert _ _)) hk) h
        exact hrt.tail (connectedTo_all_mem.mp hc)
    · rw [if_pos (by simpa using hn)] at h
      simp at h
  exact ⟨hL, hW⟩

/-- A failed ancestor search from a present node means the root does not
reach it. -/
theorem ancWalk_complete (g : Graph) (root n : Nat)
    (hwf : g.WF) (hroot : root ∈ g.nodes) (hn : n ∈ g.nodes)
    (hrt : Relation.ReflTransGen (edgeAny g) root n) :
    (ancWalk g g.searchUniv root n ∅).1 = true := by
  by_contra hfalse
  have hb : (ancWalk g g.searchUniv root n ∅).1 = false := by simpa using hfalse
  have heq : ancWalk g g.searchUniv root n ∅ =
      (false, (ancWalk g g.searchUniv root n ∅).2) := by
    rw [← hb]
  obtain ⟨-, hb2, hc2⟩ := (anc_false_post g g.searchUniv root hwf hroot
    (fun x hx => nodes_subset_searchUniv hx) ((g.searchUniv \ ∅).card)).2 n ∅ _
    (le_refl _) heq
  obtain ⟨hnv, -⟩ := hc2 hn
  have hkey : ∀ y, Relation.ReflTransGen (edgeAny g) root y →
      y ∈ (ancWalk g g.searchUniv root n ∅).2 →
      root ∈ (ancWalk g g.searchUniv root n ∅).2 := by
    intro y hy
    induction hy with
    | refl => exact fun h => h
    | tail hab hbc ih =>
      intro hcv
      have hgood := hb2 _ hcv (by simp)
      exact ih (hgood.2 _ hbc)
  have hrootv := hkey n hrt hnv
  exact (hb2 root hrootv (by simp)).1 rfl

/-- `isOrphanedNode` computes exactly the claim's orphan notion on
well-formed graphs and present nodes. -/
theorem isOrphanedNode_iff_spec (g : Graph) (n : Nat) (hwf : g.WF) (hn : n ∈ g.nodes) :
    (g.isOrphanedNode n = true ↔ OrphanedSpec g n) := by
  have hhas : g.hasNode n = true := by simpa [Graph.hasNode] using hn
  unfold Graph.isOrphanedNode OrphanedSpec
  rw [if_neg (by simp [hhas])]
  rcases hr : g.rootNodeId with _ | root
  · simp [List.isEmpty_iff]
  · constructor
    · intro hb
      have hb' : (!(ancWalk g g.searchUniv root n ∅).1) = true := hb
      intro hrt
      by_cases hrn : root ∈ g.nodes
      · have htrue := ancWalk_complete g root n hwf hrn hn hrt
        rw [htrue] at hb'
        simp at hb'
      · rcases Relation.ReflTransGen.cases_head hrt with heq | ⟨b, hab, hbn⟩
        · exact hrn (heq ▸ hn)
        · rcases hab with ⟨ty, hty⟩
          exact hrn (hwf _ hty).1
    · intro hnrt
      show (!(ancWalk g g.searchUniv root n ∅).1) = true
      by_cases hf : (ancWalk g g.searchUniv root n ∅).1 = true
      · exfalso
        have heq : ancWalk g g.searchUniv root n ∅ =
            (true, (ancWalk g g.searchUniv root n ∅).2) := by
          rw [← hf]
        exact hnrt ((anc_true_sound g g.searchUniv root ((g.searchUniv \ ∅).card)).2 n ∅ _
          (le_refl _) heq)
      · simp only [Bool.not_eq_true] at hf
        simp [hf]

theorem SubGraph.rfl (g : Graph) : SubGraph g g :=
  ⟨fun _ h => h, fun _ h => h⟩

theorem SubGraph.comp {g1 g2 g3 : Graph} (h12 : SubGraph g1 g2) (h23 : SubGraph g2 g3) :
    SubGraph g1 g3 :=
  ⟨fun e he => h23.1 e (h12.1 e he), fun x hx => h23.2 x (h12.2 x hx)⟩

theorem foldlM_subgraph {α : Type} (f : Graph → α → Option Graph)
    (hstep : ∀ acc a g', f acc a = some g' → SubGraph g' acc) :
    ∀ (l : List α) (g0 g' : Graph), l.foldlM f g0 = some g' → SubGraph g' g0 := by
  intro l
  induction l with
  | nil =>
    intro g0 g' h
    rw [List.foldlM_nil] at h
    obtain rfl : g0 = g' := by simpa using h
    exact SubGraph.rfl _
  | cons a l ih =>
    intro g0 g' h
    rw [List.foldlM_cons] at h
    rcases hfa : f g0 a with _ | g1
    · rw [hfa] at h
      simp at h
    · rw [hfa] at h
      rw [Option.bind_eq_bind, Option.some_bind] at h
      exact (ih g1 g' h).comp (hstep g0 a g1 hfa)

theorem remove_mono : ∀ fuel : Nat,
    (∀ (g : Graph) (f t ty : Nat) (ro : Bool) (g' : Graph),
      removeEdgeF fuel g f t ty ro = some g' → SubGraph g' g) ∧
    (∀ (g : Graph) (n : Nat) (g' : Graph),
      removeNodeF fuel g n = some g' → SubGraph g' g) := by
  intro fuel
  induction fuel with
  | zero =>
    constructor
    · intro g f t ty ro g' h
      rw [removeEdgeF] at h
      cases h
    · intro g n g' h
      rw [removeNodeF] at h
      cases h
  | succ fuel ih =>
    have heraseSub : ∀ (g : Graph) (f t ty : Nat), SubGraph (g.eraseEdge f t ty) g :=
      fun g f t ty => ⟨fun e he => (List.mem_filter.mp he).1, fun x hx => hx⟩
    constructor
    · intro g f t ty ro g' h
      simp only [removeEdgeF] at h
      split at h
      · cases h
      · split at h
        · exact (ih.2 _ _ _ h).comp (heraseSub g f t ty)
        · obtain rfl : g.eraseEdge f t ty = g' := by
            simpa using h
          exact heraseSub g f t ty
    · intro g n g' h
      simp only [removeNodeF] at h
      split at h
      · cases h
      · rcases h1 : (g.inboundEdges n).foldlM
            (fun acc (e : Nat × Nat × Nat) => removeEdgeF fuel acc e.1 n e.2.2 false) g
          with _ | g1
        · rw [h1] at h
          simp at h
        · rw [h1] at h
          rw [Option.some_bind] at h
          rcases h2 : (g1.outboundEdges n).foldlM
              (fun acc (e : Nat × Nat × Nat) => removeEdgeF fuel acc n e.2.1 e.2.2 true) g1
            with _ | g2
          · rw [h2] at h
            simp at h
          · rw [h2] at h
            rw [Option.some_bind] at h
            have hsub1 : SubGraph g1 g :=
              foldlM_subgraph _ (fun acc a ga hfa => ih.1 acc a.1 n a.2.2 false ga hfa) _ _ _ h1
            have hsub2 : SubGraph g2 g1 :=
              foldlM_subgraph _ (fun acc a ga hfa => ih.1 acc n a.2.1 a.2.2 true ga hfa) _ _ _ h2
            split at h
            · obtain rfl : { g2 with nodes := g2.nodes.filter (· ≠ n) } = g' := by
                simpa using h
              have hsub3 : SubGraph { g2 with nodes := g2.nodes.filter (· ≠ n) } g2 :=
                ⟨fun e he => he, fun x hx => (List.mem_filter.mp hx).1⟩
              exact (hsub3.comp hsub2).comp hsub1
            · cases h

theorem removeNodeF_not_mem (fuel : Nat) (g : Graph) (n : Nat) (g' : Graph)
    (h : removeNodeF fuel g n = some g') : n ∉ g'.nodes := by
  cases fuel with
  | zero =>
    rw [removeNodeF] at h
    cases h
  | succ fuel =>
    simp only [removeNodeF] at h
    split at h
    · cases h
    · rcases h1 : (g.inboundEdges n).foldlM
          (fun acc (e : Nat × Nat × Nat) => removeEdgeF fuel acc e.1 n e.2.2 false) g
        with _ | g1
      · rw [h1] at h
        simp at h
      · rw [h1] at h
        rw [Option.some_bind] at h
        rcases h2 : (g1.outboundEdges n).foldlM
            (fun acc (e : Nat × Nat × Nat) => removeEdgeF fuel acc n e.2.1 e.2.2 true) g1
          with _ | g2
        · rw [h2] at h
          simp at h
        · rw [h2] at h
          simp only [Option.some_bind] at h
          split at h
          · obtain rfl : { g2 with nodes := g2.nodes.filter (· ≠ n) } = g' := by
              simpa using h
            intro hmem
            have := List.mem_filter.mp hmem
            simp at this
          · cases h

/-- C5: for a well-formed graph and an existing edge `(f, t, ty)`,
`Graph.removeEdge(f, t, ty, removeOrphans = true)` unlinks the edge, and
additionally removes node `t` if and only if `t` is orphaned in the
unlinked graph — orphaned exactly as the claim defines it: with no root,
no inbound edges; with a root, no directed path over edges of any type
from the root to `t` (`OrphanedSpec`).  When `t` is not orphaned the
result is exactly the unlinked graph. -/
theorem removeEdge_orphan_spec (g : Graph) (f t ty : Nat)
    (hwf : g.WF) (hedge : g.hasEdgeB f t ty = true)
    (g' : Graph) (hres : g.removeEdge f t ty true = some g') :
    g'.hasEdgeB f t ty = false ∧
    (g'.hasNode t = false ↔ OrphanedSpec (g.eraseEdge f t ty) t) ∧
    (¬ OrphanedSpec (g.eraseEdge f t ty) t → g' = g.eraseEdge f t ty) := by
  have hmem : (f, t, ty) ∈ g.edges := by
    simpa [Graph.hasEdgeB] using hedge
  have htnode : t ∈ g.nodes := (hwf _ hmem).2
  have hg1wf : (g.eraseEdge f t ty).WF := fun e he => hwf e (List.mem_filter.mp he).1
  have htnode1 : t ∈ (g.eraseEdge f t ty).nodes := htnode
  have hiff := isOrphanedNode_iff_spec (g.eraseEdge f t ty) t hg1wf htnode1
  have hnoEdge1 : (g.eraseEdge f t ty).hasEdgeB f t ty = false := by
    simp only [Graph.hasEdgeB, Graph.eraseEdge]
    by_cases hmem2 : (f, t, ty) ∈ g.edges.filter (fun e => e ≠ (f, t, ty))
    · have := List.mem_filter.mp hmem2
      simp at this
    · simp [hmem2]
  unfold Graph.removeEdge at hres
  simp only [removeEdgeF] at hres
  rw [if_neg (by simp [hedge])] at hres
  by_cases horph : (g.eraseEdge f t ty).isOrphanedNode t = true
  · rw [if_pos (by simp [horph])] at hres
    have hspec : OrphanedSpec (g.eraseEdge f t ty) t := hiff.mp horph
    have hnot := removeNodeF_not_mem _ _ _ _ hres
    have hmono := (remove_mono _).2 _ _ _ hres
    refine ⟨?_, ?_, fun hcon => absurd hspec hcon⟩
    · by_cases habs : (f, t, ty) ∈ g'.edges
      · have := hmono.1 _ habs
        rw [show (g.eraseEdge f t ty).hasEdgeB f t ty =
          (g.eraseEdge f t ty).edges.contains (f, t, ty) from rfl] at hnoEdge1
        have : (f, t, ty) ∈ (g.eraseEdge f t ty).edges := this
        simp [this] at hnoEdge1
      · simp [Graph.hasEdgeB, habs]
    · exact ⟨fun _ => hspec, fun _ => by simpa [Graph.hasNode] using hnot⟩
  · have horph' : (g.eraseEdge f t ty).isOrphanedNode t = false := by
      simpa using horph
    rw [if_neg (by simp [horph'])] at hres
    obtain rfl : g.eraseEdge f t ty = g' := by simpa using hres
    refine ⟨hnoEdge1, ?_, fun _ => rfl⟩
    constructor
    · intro hfalse
      have : (g.eraseEdge f t ty).hasNode t = true := by
        simpa [Graph.hasNode] using htnode1
      rw [this] at hfalse
      cases hfalse
    · intro hspec
      exact absurd (hiff.mpr hspec) horph

/-- C5 witness: on the two-node chain with root 0, removing the only edge
orphans node 1 and `removeEdge` deletes it. -/
theorem removeEdge_orphan_spec_witness :
    chainRemovedGraph.hasEdgeB 0 1 1 = false ∧
    (chainRemovedGraph.hasNode 1 = false ↔ OrphanedSpec (bfsBugGraph.eraseEdge 0 1 1) 1) ∧
    (¬ OrphanedSpec (bfsBugGraph.eraseEdge 0 1 1) 1 →
      chainRemovedGraph = bfsBugGraph.eraseEdge 0 1 1) :=
  removeEdge_orphan_spec bfsBugGraph 0 1 1 (by decide) (by decide) chainRemovedGraph
    (by simp [Graph.removeEdge, removeEdgeF, removeNodeF, Graph.eraseEdge,
      Graph.isOrphanedNode, ancWalk, ancList, Graph.hasEdgeB, Graph.hasNode,
      Graph.connectedTo, Graph.inboundEdges, Graph.outboundEdges, firstOcc,
      TypeSpec.matches, Graph.searchUniv, bfsBugGraph, chainRemovedGraph, List.foldlM])

/-- **C2** (code_bug). Claim: running `propagateSymbols` a second time
with the same arguments and no intervening mutation returns an equal
error map and leaves every asset/dependency dirty flag cleared except on
error nodes.  At the concrete graph root →(E)→ group →(A)→ dangling
dependency D, the second run does return the (empty) error map of the
first — but D's `usedSymbolsUpDirtyDown` flag is still set after both
runs, although no node produces an error: the flag is only ever cleared
when a *resolution asset* of the dependency is visited by the up pass
(part_001 745-750), and a dangling dependency has none.  (The entry
dependency's `usedSymbolsUpDirtyUp` likewise survives, its parent being
the root.)  So the fixpoint/clean-flags claim fails on the embedded
code. -/
theorem propagateSymbols_fixpoint_violated :
    (propagateSymbols c2db
        (propagateSymbols c2db c2graph [103] [] none 20).graph [103] []
        (some (propagateSymbols c2db c2graph [103] [] none 20).errors) 20).errors
      = (propagateSymbols c2db c2graph [103] [] none 20).errors ∧
    (propagateSymbols c2db c2graph [103] [] none 20).errors = [] ∧
    depDirtyDownAt
      (propagateSymbols c2db
        (propagateSymbols c2db c2graph [103] [] none 20).graph [103] []
        (some (propagateSymbols c2db c2graph [103] [] none 20).errors) 20).graph 4
      = true := by
  refine ⟨by decide, by decide, by decide⟩

/-- **C3** (code_bug). Claim: after `propagateSymbols` returns, every
dependency's `usedSymbolsDown` is a superset of the keys of its
`usedSymbolsUp`.  Starting from the first run's output (where the
dangling dependency D legitimately carries `usedSymbolsUp = [(11,
null)]`, written by the excluded-dependency branch, part_001 314-318),
the entry stops requesting symbol 10 (`c3mutate`) and propagation runs
again: the down pass shrinks D's `usedSymbolsDown` to ∅, but no code
path ever *clears* an excluded dependency's `usedSymbolsUp` — the
excluded branch only adds entries — so D ends with `usedSymbolsDown = ∅`
strictly smaller than `keys(usedSymbolsUp) = {11}`, contradicting the
claim (and the code's own comment at part_001 351). -/
theorem propagateSymbols_down_superset_violated :
    depDownSupUpAt
      (propagateSymbols c2db
        (c3mutate (propagateSymbols c2db c2graph [103] [] none 20).graph) [103] []
        (some (propagateSymbols c2db c2graph [103] [] none 20).errors) 20).graph 4
      = false := by
  decide

theorem keysAscending_cons (a : SymbolId × Option Resolution) (l : UsedMap) :
    keysAscending (a :: l) = (headLeB a.1 l && keysAscending l) := by
  cases l <;> simp [keysAscending, headLeB]

theorem getNode_updateNode (g : AssetGraph) (m : NodeId) (p : AGNode) (n : NodeId) :
    (g.updateNode m p).getNode n = (g.getNode n).map (fun q => if n = m then p else q) := by
  unfold AssetGraph.updateNode AssetGraph.getNode
  simp only []
  rw [List.find?_map]
  have hcomp : ((fun kv : NodeId × AGNode => kv.1 == n) ∘
      fun kv => if kv.1 == m then (kv.1, p) else kv) = fun kv => kv.1 == n := by
    funext kv
    by_cases h : kv.1 = m <;> simp [h]
  rw [hcomp]
  cases hf : g.nodes.find? (fun kv => kv.1 == n) with
  | none => rfl
  | some e =>
    have he : e.1 = n := by
      have := List.find?_some hf
      simpa using this
    simp only [Option.map_map, Option.map_some]
    subst he
    by_cases h : e.1 = m <;> simp [h]

theorem getNode_updateNode_ne (g : AssetGraph) (m : NodeId) (p : AGNode) (n : NodeId)
    (h : n ≠ m) : (g.updateNode m p).getNode n = g.getNode n := by
  rw [getNode_updateNode]
  cases g.getNode n <;> simp [h]

theorem getNodeD_eq_of_getNode {g : AssetGraph} {n : NodeId} {q : AGNode}
    (h : g.getNode n = some q) : g.getNodeD n = q := by
  unfold AssetGraph.getNodeD
  rw [h]
  rfl

theorem getNodeD_of_getNode_none {g : AssetGraph} {n : NodeId}
    (h : g.getNode n = none) : g.getNodeD n = .root 0 := by
  unfold AssetGraph.getNodeD
  rw [h]
  rfl

theorem insertSortedUp_asc (kv : SymbolId × Option Resolution) :
    ∀ m : UsedMap, keysAscending m = true →
      keysAscending (insertSortedUp kv m) = true ∧
      ∀ x : Nat, x ≤ kv.1 → headLeB x m = true → headLeB x (insertSortedUp kv m) = true := by
  intro m
  induction m with
  | nil =>
    intro _
    refine ⟨rfl, ?_⟩
    intro x hx _
    simpa [insertSortedUp, headLeB] using hx
  | cons a t ih =>
    intro h
    rw [keysAscending_cons, Bool.and_eq_true] at h
    unfold insertSortedUp
    by_cases hle : kv.1 ≤ a.1
    · rw [if_pos hle]
      constructor
      · rw [keysAscending_cons, Bool.and_eq_true, keysAscending_cons, Bool.and_eq_true]
        exact ⟨by simpa [headLeB] using hle, h⟩
      · intro x hx _
        simpa [headLeB] using hx
    · rw [if_neg hle]
      obtain ⟨ht, hh⟩ := ih h.2
      have hak : a.1 ≤ kv.1 := le_of_not_le hle
      constructor
      · rw [keysAscending_cons, Bool.and_eq_true]
        exact ⟨hh a.1 hak h.1, ht⟩
      · intro x hx hxa
        simpa [headLeB] using (by simpa [headLeB] using hxa : x ≤ a.1)

theorem sortByKey_asc (m : UsedMap) : keysAscending (sortByKey m) = true := by
  unfold sortByKey
  induction m with
  | nil => rfl
  | cons kv t ih => exact (insertSortedUp_asc kv _ ih).1

/-- `sortChangedDep` at the touched node: a dependency payload gets its
map sorted, anything else is untouched. -/
theorem getNode_sortChangedDep_self (g : AssetGraph) (n : NodeId) :
    (sortChangedDep g n).getNode n = (g.getNode n).map (fun q =>
      match q with
      | .dependency dd => .dependency { dd with usedSymbolsUp := sortByKey dd.usedSymbolsUp }
      | q => q) := by
  unfold sortChangedDep
  cases hg : g.getNode n with
  | none =>
    rw [getNodeD_of_getNode_none hg]
    simp [hg]
  | some q =>
    rw [getNodeD_eq_of_getNode hg]
    cases q with
    | dependency dd => rw [getNode_updateNode, hg]; simp
    | root i => simp [hg]
    | asset d => simp [hg]
    | assetGroup d => simp [hg]

theorem getNode_sortChangedDep_ne (g : AssetGraph) (m n : NodeId) (h : n ≠ m) :
    (sortChangedDep g m).getNode n = g.getNode n := by
  unfold sortChangedDep
  cases g.getNodeD m with
  | dependency dd => exact getNode_updateNode_ne g m _ n h
  | root i => rfl
  | asset d => rfl
  | assetGroup d => rfl

theorem getNode_sortFold_not_mem (l : List NodeId) (g : AssetGraph) (n : NodeId)
    (h : n ∉ l) : (l.foldl sortChangedDep g).getNode n = g.getNode n := by
  induction l generalizing g with
  | nil => rfl
  | cons a l' ih =>
    have hna : n ≠ a := fun he => h (he ▸ List.mem_cons_self a l')
    have hnl : n ∉ l' := fun hm => h (List.mem_cons_of_mem a hm)
    rw [List.foldl_cons, ih _ hnl, getNode_sortChangedDep_ne g a n hna]

theorem sortFold_sorted :
    ∀ (l : List NodeId) (g : AssetGraph) (n : NodeId), n ∈ l → ∀ dd : DepNodeData,
      (l.foldl sortChangedDep g).getNode n = some (.dependency dd) →
      keysAscending dd.usedSymbolsUp = true := by
  intro l
  induction l with
  | nil =>
    intro g n hmem
    exact absurd hmem (List.not_mem_nil n)
  | cons a l' ih =>
    intro g n hmem dd hres
    rw [List.foldl_cons] at hres
    by_cases hin : n ∈ l'
    · exact ih _ n hin dd hres
    · have hna : n = a := by
        rcases List.mem_cons.mp hmem with h | h
        · exact h
        · exact absurd h hin
      subst hna
      rw [getNode_sortFold_not_mem l' _ n hin, getNode_sortChangedDep_self] at hres
      cases hg : g.getNode n with
      | none => rw [hg] at hres; exact absurd hres (by simp)
      | some q =>
        rw [hg] at hres
        cases q with
        | dependency dd0 =>
          simp only [Option.map_some', Option.some.injEq] at hres
          have : dd = { dd0 with usedSymbolsUp := sortByKey dd0.usedSymbolsUp } := by
            cases hres
            rfl
          rw [this]
          exact sortByKey_asc dd0.usedSymbolsUp
        | root i => exact absurd hres (by simp)
        | asset d0 => exact absurd hres (by simp)
        | assetGroup d0 => exact absurd hres (by simp)

/-- **C4 counterexample**. Claim: *every* dependency with non-empty
`usedSymbolsUp` has ascending keys after `propagateSymbols`.  With empty
change sets the call leaves the graph untouched (nothing is enqueued, so
`changedDeps` stays empty and no map is re-sorted), and a dependency
whose stale map has keys `[5, 3]` survives unsorted: the final sort
(part_001 520-524) only covers `changedDeps`. -/
theorem propagateSymbols_sorted_counterexample :
    (propagateSymbols c2db c4graph [] [] none 5).graph = c4graph ∧
    allDepsUpSorted (propagateSymbols c2db c4graph [] [] none 5).graph = false := by
  refine ⟨by decide, by decide⟩

/-- **C4** (corrected). Amended claim: after `propagateSymbols` returns,
every dependency listed in `changedDeps` — i.e. every dependency whose
`usedSymbolsUp` changed during the up pass — has its `usedSymbolsUp`
keys in ascending SymbolId order; dependencies the pass did not change
keep their previous order. -/
theorem propagateSymbols_changedDeps_sorted (db : Db) (g : AssetGraph)
    (cks : List ContentKey) (rps : List NodeId)
    (pe : Option (List (NodeId × List Diag))) (fuel : Nat) :
    ∀ nid ∈ (propagateSymbols db g cks rps pe fuel).changedDeps, ∀ dd : DepNodeData,
      (propagateSymbols db g cks rps pe fuel).graph.getNode nid = some (.dependency dd) →
      keysAscending dd.usedSymbolsUp = true := by
  intro nid hmem dd hres
  simp only [propagateSymbols] at hmem hres
  exact sortFold_sorted _ _ nid hmem dd hres

theorem propagateSymbols_changedDeps_sorted_witness :
    (1 ∈ (propagateSymbols c2db c2graph [103] [] none 20).changedDeps ∧
      (propagateSymbols c2db c2graph [103] [] none 20).graph.getNode 1
        = some (.dependency c4wdep)) ∧
    keysAscending c4wdep.usedSymbolsUp = true :=
  ⟨⟨by decide, by decide⟩,
    propagateSymbols_changedDeps_sorted c2db c2graph [103] [] none 20 1 (by decide)
      c4wdep (by decide)⟩

theorem frameRfl (g : AssetGraph) : Frame g g := ⟨Eq.refl _, Eq.refl _, Eq.refl _⟩

theorem Frame.andThen {g1 g2 g3 : AssetGraph} (h1 : Frame g1 g2) (h2 : Frame g2 g3) :
    Frame g1 g3 :=
  ⟨h2.1.trans h1.1, h2.2.1.trans h1.2.1, h2.2.2.trans h1.2.2⟩

theorem keys_eq_of_frame {g g' : AssetGraph} (h : Frame g g') :
    g'.nodes.map (·.1) = g.nodes.map (·.1) := by
  have h2 := h.2.2
  unfold AssetGraph.keyTags at h2
  have : ∀ gg : AssetGraph, gg.nodes.map (·.1)
      = (gg.nodes.map (fun kv => (kv.1, kv.2.tag))).map (·.1) := by
    intro gg
    rw [List.map_map]
    rfl
  rw [this, this, h2]

theorem nodupKeys_of_frame {g g' : AssetGraph} (h : Frame g g') (hnd : NodupKeys g) :
    NodupKeys g' := by
  unfold NodupKeys at hnd ⊢
  rw [keys_eq_of_frame h]
  exact hnd

theorem hasNode_iff_mem_keys (g : AssetGraph) (n : NodeId) :
    g.hasNode n = true ↔ n ∈ g.nodes.map (·.1) := by
  unfold AssetGraph.hasNode AssetGraph.getNode
  rw [Option.isSome_map']
  rw [List.find?_isSome]
  simp only [List.mem_map]
  constructor
  · rintro ⟨e, he, hp⟩
    exact ⟨e, he, by simpa using hp⟩
  · rintro ⟨e, he, hp⟩
    exact ⟨e, he, by simpa using hp⟩

theorem hasNode_of_frame {g g' : AssetGraph} (h : Frame g g') (n : NodeId) :
    g'.hasNode n = g.hasNode n := by
  cases hg : g.hasNode n with
  | true =>
    rw [hasNode_iff_mem_keys] at hg ⊢
    rwa [keys_eq_of_frame h]
  | false =>
    cases hg' : g'.hasNode n with
    | false => rfl
    | true =>
      rw [hasNode_iff_mem_keys, keys_eq_of_frame h] at hg'
      rw [← hasNode_iff_mem_keys] at hg'
      rw [hg] at hg'
      exact hg'.symm

theorem payload_eq_of_mem_list {m : NodeId} {q : AGNode} :
    ∀ l : List (NodeId × AGNode), (l.map (·.1)).Nodup →
      (l.find? (·.1 == m)).map (·.2) = some q →
      ∀ kv ∈ l, kv.1 = m → kv.2 = q := by
  intro l
  induction l with
  | nil => intro _ hq; simp at hq
  | cons e t ih =>
    intro hnd hq kv hkv hk
    rw [List.map_cons, List.nodup_cons] at hnd
    by_cases he : e.1 = m
    · have hfind : (e :: t).find? (·.1 == m) = some e := by
        simp [List.find?, he]
      rw [hfind] at hq
      simp only [Option.map_some', Option.some.injEq] at hq
      rcases List.mem_cons.mp hkv with rfl | hmem
      · exact hq
      · have hmm : m ∈ List.map (fun x => x.1) t := by
          simpa [hk] using List.mem_map_of_mem (fun x => x.1) hmem
        exact absurd hmm (he ▸ hnd.1)
    · have hbe : (e.1 == m) = false := by simp [he]
      have hfind : (e :: t).find? (·.1 == m) = t.find? (·.1 == m) := by
        simp [List.find?, hbe]
      rw [hfind] at hq
      rcases List.mem_cons.mp hkv with rfl | hmem
      · exact absurd hk he
      · exact ih hnd.2 hq kv hmem hk

/-- With unique keys, any entry's payload is what `getNode` returns. -/
theorem payload_eq_of_mem {g : AssetGraph} {m : NodeId} {q : AGNode}
    (hnd : NodupKeys g) (hq : g.getNode m = some q) :
    ∀ kv ∈ g.nodes, kv.1 = m → kv.2 = q :=
  payload_eq_of_mem_list g.nodes hnd hq

theorem frame_updateNode {g : AssetGraph} {m : NodeId} {p q : AGNode}
    (hnd : NodupKeys g) (hq : g.getNode m = some q) (htag : p.tag = q.tag) :
    Frame g (g.updateNode m p) := by
  refine ⟨Eq.refl _, Eq.refl _, ?_⟩
  unfold AssetGraph.updateNode AssetGraph.keyTags
  simp only [List.map_map]
  apply List.map_congr_left
  intro kv hkv
  by_cases hk : kv.1 = m
  · have := payload_eq_of_mem hnd hq kv hkv hk
    simp [Function.comp, hk, this, htag]
  · simp [Function.comp, hk]

theorem frame_updateNode_miss {g : AssetGraph} {m : NodeId} {p : AGNode}
    (hq : g.getNode m = none) : Frame g (g.updateNode m p) := by
  refine ⟨Eq.refl _, Eq.refl _, ?_⟩
  unfold AssetGraph.getNode at hq
  have hnone : ∀ kv ∈ g.nodes, (kv.1 == m) = false := by
    intro kv hkv
    by_contra hne
    have : g.nodes.find? (·.1 == m) ≠ none := by
      rw [Ne, List.find?_eq_none]
      push_neg
      exact ⟨kv, hkv, by simpa using hne⟩
    rw [Option.map_eq_none'] at hq
    exact this hq
  unfold AssetGraph.updateNode AssetGraph.keyTags
  simp only [List.map_map]
  apply List.map_congr_left
  intro kv hkv
  simp [Function.comp, hnone kv hkv]

theorem frame_updateDep {g : AssetGraph} (hnd : NodupKeys g) (n : NodeId) (d : DepNodeData) :
    Frame g (g.updateDep n d) := by
  unfold AssetGraph.updateDep
  cases hg : g.getNode n with
  | none => exact frameRfl g
  | some q =>
    cases q with
    | dependency d0 => exact frame_updateNode hnd hg (by rfl)
    | root i => exact frameRfl g
    | asset a => exact frameRfl g
    | assetGroup a => exact frameRfl g

theorem frame_updateAsset {g : AssetGraph} (hnd : NodupKeys g) (n : NodeId)
    (d : AssetNodeData) : Frame g (g.updateAsset n d) := by
  unfold AssetGraph.updateAsset
  cases hg : g.getNode n with
  | none => exact frameRfl g
  | some q =>
    cases q with
    | asset a0 => exact frame_updateNode hnd hg (by rfl)
    | root i => exact frameRfl g
    | dependency d0 => exact frameRfl g
    | assetGroup a0 => exact frameRfl g

/-- A fold whose every step preserves the frame (given unique keys)
preserves the frame. -/
theorem frame_foldl {α : Type} (f : AssetGraph → α → AssetGraph)
    (hf : ∀ gg a, NodupKeys gg → Frame gg (f gg a)) :
    ∀ (l : List α) (g : AssetGraph), NodupKeys g → Frame g (l.foldl f g) := by
  intro l
  induction l with
  | nil => intro g _; exact frameRfl g
  | cons a t ih =>
    intro g hnd
    have h1 := hf g a hnd
    exact h1.andThen (ih (f g a) (nodupKeys_of_frame h1 hnd))

theorem getNode_of_getNodeD_ne {g : AssetGraph} {n : NodeId} {q : AGNode}
    (h : g.getNodeD n = q) (hq : q ≠ .root 0) : g.getNode n = some q := by
  unfold AssetGraph.getNodeD at h
  cases hg : g.getNode n with
  | none =>
    rw [hg] at h
    exact absurd ((by simpa using h) : AGNode.root 0 = q) (fun he => hq he.symm)
  | some p =>
    rw [hg] at h
    rw [(by simpa using h : p = q)]

theorem frame_foldl_fst {α β : Type} (f : (AssetGraph × β) → α → (AssetGraph × β))
    (hf : ∀ gs a, NodupKeys gs.1 → Frame gs.1 (f gs a).1) :
    ∀ (l : List α) (gs : AssetGraph × β), NodupKeys gs.1 → Frame gs.1 (l.foldl f gs).1 := by
  intro l
  induction l with
  | nil => intro gs _; exact frameRfl gs.1
  | cons a t ih =>
    intro gs hnd
    have h1 := hf gs a hnd
    exact h1.andThen (ih (f gs a) (nodupKeys_of_frame h1 hnd))

theorem frame_downChildStep (wasNodeDirty : Bool) :
    ∀ (gs : AssetGraph × List NodeId) (child : NodeId), NodupKeys gs.1 →
      Frame gs.1 (downChildStep wasNodeDirty gs child).1 := by
  intro gs child hnd
  unfold downChildStep
  cases hD : gs.1.getNodeD child with
  | asset cd =>
    simp only []
    by_cases hw : wasNodeDirty = true
    · rw [if_pos hw]
      exact frame_updateNode hnd (getNode_of_getNodeD_ne hD (by simp)) (by rfl)
    · rw [if_neg hw]
      exact frameRfl gs.1
  | assetGroup cd =>
    simp only []
    by_cases hw : wasNodeDirty = true
    · rw [if_pos hw]
      exact frame_updateNode hnd (getNode_of_getNodeD_ne hD (by simp)) (by rfl)
    · rw [if_neg hw]
      exact frameRfl gs.1
  | dependency cd =>
    simp only []
    by_cases hc : cd.usedSymbolsDownDirty = true
    · rw [if_pos hc]
      exact frameRfl gs.1
    · rw [if_neg hc]
      exact frameRfl gs.1
  | root i =>
    simp only []
    exact frameRfl gs.1

theorem frame_writeDepPair :
    ∀ (gg : AssetGraph) (pr : (NodeId × DepNodeData) × DepNodeData), NodupKeys gg →
      Frame gg (writeDepPair gg pr) := by
  intro gg pr hnd
  exact frame_updateDep hnd pr.1.1 pr.2

theorem frame_writeDep :
    ∀ (gg : AssetGraph) (pr : NodeId × DepNodeData), NodupKeys gg →
      Frame gg (writeDep gg pr) := by
  intro gg pr hnd
  exact frame_updateDep hnd pr.1 pr.2

theorem frame_clearDirtyDownStep :
    ∀ (gs : AssetGraph × Bool) (pr : NodeId × DepNodeData), NodupKeys gs.1 →
      Frame gs.1 (clearDirtyDownStep gs pr).1 := by
  intro gs pr hnd
  unfold clearDirtyDownStep
  by_cases h : pr.2.usedSymbolsUpDirtyDown = true
  · rw [if_pos h]
    exact frame_updateDep hnd pr.1 _
  · rw [if_neg h]
    exact frameRfl gs.1

theorem frame_clearDirtyUpStep :
    ∀ (gs : AssetGraph × Bool) (pr : NodeId × DepNodeData), NodupKeys gs.1 →
      Frame gs.1 (clearDirtyUpStep gs pr).1 := by
  intro gs pr hnd
  unfold clearDirtyUpStep
  by_cases h : pr.2.usedSymbolsUpDirtyUp = true
  · rw [if_pos h]
    exact frame_updateDep hnd pr.1 _
  · rw [if_neg h]
    exact frameRfl gs.1

theorem frame_downStep (db : Db) (g : AssetGraph) (q : NodeId) (qr un : List NodeId)
    (ch : List ContentKey) (hnd : NodupKeys g) :
    Frame g (propagateSymbolsDownStep db g q qr un ch).1 := by
  unfold propagateSymbolsDownStep
  cases hD : g.getNodeD q with
  | dependency d =>
    simp only [hD]
    have h1 : Frame g (g.updateNode q (.dependency { d with usedSymbolsDownDirty := false })) :=
      frame_updateNode hnd (getNode_of_getNodeD_ne hD (by simp)) (by rfl)
    exact h1.andThen (frame_foldl_fst _ (frame_downChildStep _) _ _ (nodupKeys_of_frame h1 hnd))
  | assetGroup d =>
    simp only [hD]
    have h1 : Frame g (g.updateNode q (.assetGroup { d with usedSymbolsDownDirty := false })) :=
      frame_updateNode hnd (getNode_of_getNodeD_ne hD (by simp)) (by rfl)
    exact h1.andThen (frame_foldl_fst _ (frame_downChildStep _) _ _ (nodupKeys_of_frame h1 hnd))
  | asset d =>
    simp only [hD]
    by_cases hdirty : d.usedSymbolsDownDirty = true
    · rw [if_pos hdirty]
      have h1 : Frame g (g.updateAsset q
          { d with
            usedSymbols := (downVisit db d ((g.incomingDepPairs d.value).map (·.2))
              ((g.outgoingDepPairs q).map (·.2))).1
            usedSymbolsDownDirty := false }) :=
        frame_updateAsset hnd q _
      have h2 := frame_foldl _ frame_writeDepPair
        ((g.outgoingDepPairs q).zip
          (downVisit db d ((g.incomingDepPairs d.value).map (·.2))
            ((g.outgoingDepPairs q).map (·.2))).2.1) _
        (nodupKeys_of_frame h1 hnd)
      have h12 := h1.andThen h2
      exact h12.andThen (frame_foldl_fst _ (frame_downChildStep _) _ _
        (nodupKeys_of_frame h12 hnd))
    · rw [if_neg hdirty]
      exact frame_foldl_fst _ (frame_downChildStep _) _ _ hnd
  | root i =>
    simp only [hD]
    exact frame_foldl_fst _ (frame_downChildStep _) _ _ hnd

theorem frame_downLoop (db : Db) :
    ∀ (fuel : Nat) (g : AssetGraph) (queue unreached : List NodeId)
      (changed : List ContentKey), NodupKeys g →
      Frame g (propagateSymbolsDownLoop db fuel g queue unreached changed).1 := by
  intro fuel
  induction fuel with
  | zero => intro g _ _ _ _; exact frameRfl g
  | succ n ih =>
    intro g queue unreached changed hnd
    cases queue with
    | nil => exact frameRfl g
    | cons a qs =>
      unfold propagateSymbolsDownLoop
      have h1 := frame_downStep db g a qs unreached changed hnd
      exact h1.andThen (ih _ _ _ _ (nodupKeys_of_frame h1 hnd))

theorem frame_down (db : Db) (g : AssetGraph) (ca rp : List NodeId) (fuel : Nat)
    (hnd : NodupKeys g) : Frame g (propagateSymbolsDown db g ca rp fuel).1 := by
  unfold propagateSymbolsDown
  by_cases h : (ca.isEmpty && rp.isEmpty) = true
  · rw [if_pos h]
    exact frameRfl g
  · rw [if_neg h]
    cases rp.foldl addOnce ca with
    | nil => exact frameRfl g
    | cons u us => exact frame_downLoop db fuel g [u] us [] hnd

theorem frame_upStep (db : Db) (g : AssetGraph) (q : NodeId) (qr : List NodeId)
    (errors : List (NodeId × List Diag)) (cd : List NodeId)
    (evs : List (NodeId × List Diag)) (hnd : NodupKeys g) :
    Frame g (propagateSymbolsUpStep db g q qr errors cd evs).1 := by
  unfold propagateSymbolsUpStep
  cases hD : g.getNodeD q with
  | asset d =>
    simp only [hD]
    generalize hA : List.foldl clearDirtyDownStep (g, d.usedSymbolsUpDirty)
      (g.incomingDepPairs d.value) = sA
    generalize hB : List.foldl clearDirtyUpStep (sA.1, sA.2) (sA.1.outgoingDepPairs q) = sB
    have hFA : Frame g sA.1 := by
      rw [← hA]
      exact frame_foldl_fst _ frame_clearDirtyDownStep _ _ hnd
    have hndA := nodupKeys_of_frame hFA hnd
    have hFB : Frame sA.1 sB.1 := by
      rw [← hB]
      exact frame_foldl_fst _ frame_clearDirtyUpStep _ _ hndA
    have hFAB := hFA.andThen hFB
    have hndB := nodupKeys_of_frame hFAB hnd
    by_cases h2 : sB.2 = true
    · rw [if_pos h2]
      generalize upVisit db sB.1 d (sB.1.incomingDepPairs d.value)
        (sB.1.outgoingDepPairs q) = r
      have hW1 : Frame sB.1 (List.foldl writeDep sB.1 r.2.1) :=
        frame_foldl _ frame_writeDep _ _ hndB
      have hnd1 := nodupKeys_of_frame (hFAB.andThen hW1) hnd
      have hW2 : Frame (List.foldl writeDep sB.1 r.2.1)
          (List.foldl writeDep (List.foldl writeDep sB.1 r.2.1) r.2.2.1) :=
        frame_foldl _ frame_writeDep _ _ hnd1
      have hnd2 := nodupKeys_of_frame ((hFAB.andThen hW1).andThen hW2) hnd
      have hU := frame_updateAsset hnd2 q
        { d with
          usedSymbols := r.1
          usedSymbolsUpDirty := ¬ r.2.2.2.1.isEmpty }
      exact (((hFAB.andThen hW1).andThen hW2).andThen hU)
    · rw [if_neg h2]
      exact hFAB
  | dependency d =>
    simp only [hD]
    cases g.connectedTo q with
    | nil => exact frameRfl g
    | cons c cs => exact frameRfl g
  | assetGroup d =>
    simp only [hD]
    cases g.connectedTo q with
    | nil => exact frameRfl g
    | cons c cs => exact frameRfl g
  | root i =>
    simp only [hD]
    cases g.connectedTo q with
    | nil => exact frameRfl g
    | cons c cs => exact frameRfl g

theorem frame_upLoop (db : Db) :
    ∀ (fuel : Nat) (g : AssetGraph) (queue : List NodeId)
      (errors : List (NodeId × List Diag)) (cd : List NodeId)
      (evs : List (NodeId × List Diag)), NodupKeys g →
      Frame g (propagateSymbolsUpLoop db fuel g queue errors cd evs).1 := by
  intro fuel
  induction fuel with
  | zero => intro g _ _ _ _ _; exact frameRfl g
  | succ n ih =>
    intro g queue errors cd evs hnd
    cases queue with
    | nil => exact frameRfl g
    | cons a qs =>
      unfold propagateSymbolsUpLoop
      have h1 := frame_upStep db g a qs errors cd evs hnd
      exact h1.andThen (ih _ _ _ _ _ (nodupKeys_of_frame h1 hnd))

theorem frame_up (db : Db) (g : AssetGraph) (ca : List NodeId) (ch : List ContentKey)
    (pe : Option (List (NodeId × List Diag))) (fuel : Nat) (hnd : NodupKeys g) :
    Frame g (propagateSymbolsUp db g ca ch pe fuel).1 := by
  unfold propagateSymbolsUp
  exact frame_upLoop db fuel g _ _ [] [] hnd

theorem frame_sortChangedDep :
    ∀ (gg : AssetGraph) (nid : NodeId), NodupKeys gg → Frame gg (sortChangedDep gg nid) := by
  intro gg nid hnd
  unfold sortChangedDep
  cases hD : gg.getNodeD nid with
  | dependency dd =>
    exact frame_updateNode hnd (getNode_of_getNodeD_ne hD (by simp)) (by rfl)
  | root i => exact frameRfl gg
  | asset d => exact frameRfl gg
  | assetGroup d => exact frameRfl gg

theorem frame_propagateSymbols (db : Db) (g : AssetGraph) (cks : List ContentKey)
    (rps : List NodeId) (pe : Option (List (NodeId × List Diag))) (fuel : Nat)
    (hnd : NodupKeys g) : Frame g (propagateSymbols db g cks rps pe fuel).graph := by
  unfold propagateSymbols
  have h1 := frame_down db g
    (cks.foldl (fun acc ck => addOnce acc (g.getNodeIdByContentKey ck)) []) rps fuel hnd
  have hnd1 := nodupKeys_of_frame h1 hnd
  have h2 := frame_up db
    (propagateSymbolsDown db g
      (cks.foldl (fun acc ck => addOnce acc (g.getNodeIdByContentKey ck)) []) rps fuel).1
    (cks.foldl (fun acc ck => addOnce acc (g.getNodeIdByContentKey ck)) [])
    (propagateSymbolsDown db g
      (cks.foldl (fun acc ck => addOnce acc (g.getNodeIdByContentKey ck)) []) rps fuel).2
    pe fuel hnd1
  have h12 := h1.andThen h2
  have hnd2 := nodupKeys_of_frame h12 hnd
  exact h12.andThen (frame_foldl _ frame_sortChangedDep _ _ hnd2)

/-- **C8** (confirmed). `propagateSymbols` only rewrites node payloads in
place: for every database, input graph (with the unique node ids a JS
`Map` guarantees), change sets and fuel, the edge list, the root node id,
and the NodeId assignment — which node ids exist, in store order, each
keeping its node kind — are identical before and after the call. -/
theorem propagateSymbols_frame (db : Db) (g : AssetGraph) (cks : List ContentKey)
    (rps : List NodeId) (pe : Option (List (NodeId × List Diag))) (fuel : Nat)
    (hnd : NodupKeys g) :
    (propagateSymbols db g cks rps pe fuel).graph.edges = g.edges ∧
    (propagateSymbols db g cks rps pe fuel).graph.rootNodeId = g.rootNodeId ∧
    (propagateSymbols db g cks rps pe fuel).graph.keyTags = g.keyTags :=
  frame_propagateSymbols db g cks rps pe fuel hnd

theorem propagateSymbols_frame_witness :
    NodupKeys c2graph ∧
    ((propagateSymbols c2db c2graph [103] [] none 20).graph.edges = c2graph.edges ∧
      (propagateSymbols c2db c2graph [103] [] none 20).graph.rootNodeId = c2graph.rootNodeId ∧
      (propagateSymbols c2db c2graph [103] [] none 20).graph.keyTags = c2graph.keyTags) :=
  ⟨by decide, propagateSymbols_frame c2db c2graph [103] [] none 20 (by decide)⟩

theorem lookupKey_replace_self {β : Type} (k : Nat) (v : β) :
    ∀ m : List (Nat × β),
      lookupKey (m.map (fun kv => if kv.1 == k then (k, v) else kv)) k
        = (lookupKey m k).map (fun _ => v) := by
  intro m
  induction m with
  | nil => rfl
  | cons e t ih =>
    unfold lookupKey at ih ⊢
    by_cases he : e.1 = k
    · simp [List.find?, he]
    · have hbe : (e.1 == k) = false := by simp [he]
      simp only [List.map_cons, hbe, if_neg, Bool.false_eq_true, ite_false, List.find?, hbe]
      exact ih

theorem lookupKey_mapSet_self {β : Type} (m : List (Nat × β)) (k : Nat) (v : β) :
    lookupKey (mapSet m k v) k = some v := by
  unfold mapSet
  by_cases hany : m.any (·.1 == k) = true
  · rw [if_pos hany]
    rw [lookupKey_replace_self]
    obtain ⟨e, he, hp⟩ := List.any_eq_true.mp hany
    have : (m.find? (·.1 == k)).isSome := List.find?_isSome.mpr ⟨e, he, hp⟩
    unfold lookupKey
    obtain ⟨w, hw⟩ := Option.isSome_iff_exists.mp this
    rw [hw]
    rfl
  · rw [if_neg hany]
    have hnone : m.find? (·.1 == k) = none := by
      rw [List.find?_eq_none]
      intro kv hkv
      by_contra hne
      exact hany (List.any_eq_true.mpr ⟨kv, hkv, by simpa using hne⟩)
    unfold lookupKey
    rw [List.find?_append, hnone]
    simp [List.find?]

theorem lookupKey_replace_ne {β : Type} (k n : Nat) (v : β) (h : n ≠ k) :
    ∀ m : List (Nat × β),
      lookupKey (m.map (fun kv => if kv.1 == k then (k, v) else kv)) n = lookupKey m n := by
  intro m
  induction m with
  | nil => rfl
  | cons e t ih =>
    unfold lookupKey at ih ⊢
    by_cases he : e.1 = k
    · have hen : (e.1 == n) = false := by simp [he, Ne.symm h]
      have hkn : (k == n) = false := by simp [Ne.symm h]
      have hbe : (e.1 == k) = true := by simp [he]
      simp only [List.map_cons, List.find?, hbe, ite_true, hen, hkn]
      exact ih
    · have hbe : (e.1 == k) = false := by simp [he]
      simp only [List.map_cons, hbe, Bool.false_eq_true, ite_false, List.find?]
      cases hen : (e.1 == n) with
      | true => rfl
      | false => exact ih

theorem lookupKey_mapSet_ne {β : Type} (m : List (Nat × β)) (k : Nat) (v : β) (n : Nat)
    (h : n ≠ k) : lookupKey (mapSet m k v) n = lookupKey m n := by
  unfold mapSet
  by_cases hany : m.any (·.1 == k) = true
  · rw [if_pos hany]
    exact lookupKey_replace_ne k n v h m
  · rw [if_neg hany]
    unfold lookupKey
    rw [List.find?_append]
    cases hf : m.find? (·.1 == n) with
    | some e => rfl
    | none =>
      have hkn : (k == n) = false := by simp [Ne.symm h]
      simp [List.find?, hkn]

theorem lookupKey_filterOut_self {β : Type} (m : List (Nat × β)) (k : Nat) :
    lookupKey (m.filter (fun kv => kv.1 ≠ k)) k = none := by
  unfold lookupKey
  rw [Option.map_eq_none', List.find?_eq_none]
  intro kv hkv
  have := (List.mem_filter.mp hkv).2
  simp only [ne_eq, decide_not, Bool.not_eq_true', decide_eq_false_iff_not] at this
  simp [this]

theorem lookupKey_filterOut_ne {β : Type} (m : List (Nat × β)) (k n : Nat) (h : n ≠ k) :
    lookupKey (m.filter (fun kv => kv.1 ≠ k)) n = lookupKey m n := by
  unfold lookupKey
  induction m with
  | nil => rfl
  | cons e t ih =>
    by_cases he : e.1 = k
    · have hen : (e.1 == n) = false := by simp [he, Ne.symm h]
      have : (decide (e.1 ≠ k)) = false := by simp [he]
      simp only [List.filter_cons, this, List.find?, hen]
      exact ih
    · have : (decide (e.1 ≠ k)) = true := by simp [he]
      simp only [List.filter_cons, this, List.find?]
      cases hen : (e.1 == n) with
      | true => rfl
      | false => exact ih

theorem errState_update {errors0 evs errors : List (NodeId × List Diag)}
    (h : ErrState errors0 evs errors) (q : NodeId) (e : List Diag) :
    ErrState errors0 (evs ++ [(q, e)])
      (if e.isEmpty then errors.filter (fun kv => kv.1 ≠ q) else mapSet errors q e) := by
  intro n
  rw [List.filter_append]
  by_cases hn : n = q
  · subst hn
    have hfil : ([(n, e)].filter (fun pr => pr.1 == n)) = [(n, e)] := by
      simp [List.filter]
    rw [hfil, List.getLast?_concat]
    by_cases he : e.isEmpty = true
    · simp only [he, ite_true]
      exact lookupKey_filterOut_self errors n
    · simp only [he, Bool.false_eq_true, ite_false]
      exact lookupKey_mapSet_self errors n e
  · have hqn : (q == n) = false := by simp [Ne.symm hn]
    have hfil : ([(q, e)].filter (fun pr => pr.1 == n)) = [] := by
      simp [List.filter, hqn]
    rw [hfil, List.append_nil]
    by_cases he : e.isEmpty = true
    · rw [if_pos he]
      rw [lookupKey_filterOut_ne errors q n hn]
      exact h n
    · rw [if_neg he]
      rw [lookupKey_mapSet_ne errors q e n hn]
      exact h n

theorem upStep_errstate (db : Db) (g0 : AssetGraph)
    (errors0 : List (NodeId × List Diag)) (g : AssetGraph) (q : NodeId)
    (qr : List NodeId) (errors : List (NodeId × List Diag)) (cd : List NodeId)
    (evs : List (NodeId × List Diag)) (hf : Frame g0 g)
    (hlive : EventsLive g0 evs) (hstate : ErrState errors0 evs errors) :
    EventsLive g0 (propagateSymbolsUpStep db g q qr errors cd evs).2.2.2.2 ∧
    ErrState errors0 (propagateSymbolsUpStep db g q qr errors cd evs).2.2.2.2
      (propagateSymbolsUpStep db g q qr errors cd evs).2.2.1 := by
  unfold propagateSymbolsUpStep
  cases hD : g.getNodeD q with
  | asset d =>
    simp only [hD]
    generalize List.foldl clearDirtyDownStep (g, d.usedSymbolsUpDirty)
      (g.incomingDepPairs d.value) = sA
    generalize List.foldl clearDirtyUpStep (sA.1, sA.2) (sA.1.outgoingDepPairs q) = sB
    by_cases h2 : sB.2 = true
    · rw [if_pos h2]
      generalize upVisit db sB.1 d (sB.1.incomingDepPairs d.value)
        (sB.1.outgoingDepPairs q) = r
      constructor
      · intro pr hpr
        rcases List.mem_append.mp hpr with hold | hnew
        · exact hlive pr hold
        · have : pr = (q, r.2.2.2.1) := by simpa using hnew
          subst this
        
          have hq : g.hasNode q = true := by
            unfold AssetGraph.hasNode
            rw [getNode_of_getNodeD_ne hD (by simp)]
            rfl
          rw [hasNode_of_frame hf q] at hq
          exact hq
      · exact errState_update hstate q r.2.2.2.1
    · rw [if_neg h2]
      exact ⟨hlive, hstate⟩
  | dependency d =>
    simp only [hD]
    cases g.connectedTo q with
    | nil => exact ⟨hlive, hstate⟩
    | cons c cs => exact ⟨hlive, hstate⟩
  | assetGroup d =>
    simp only [hD]
    cases g.connectedTo q with
    | nil => exact ⟨hlive, hstate⟩
    | cons c cs => exact ⟨hlive, hstate⟩
  | root i =>
    simp only [hD]
    cases g.connectedTo q with
    | nil => exact ⟨hlive, hstate⟩
    | cons c cs => exact ⟨hlive, hstate⟩

theorem upLoop_errstate (db : Db) (g0 : AssetGraph)
    (errors0 : List (NodeId × List Diag)) :
    ∀ (fuel : Nat) (g : AssetGraph) (queue : List NodeId)
      (errors : List (NodeId × List Diag)) (cd : List NodeId)
      (evs : List (NodeId × List Diag)),
      NodupKeys g → Frame g0 g → EventsLive g0 evs → ErrState errors0 evs errors →
      EventsLive g0 (propagateSymbolsUpLoop db fuel g queue errors cd evs).2.2.2 ∧
      ErrState errors0 (propagateSymbolsUpLoop db fuel g queue errors cd evs).2.2.2
        (propagateSymbolsUpLoop db fuel g queue errors cd evs).2.1 := by
  intro fuel
  induction fuel with
  | zero => intro g _ errors _ evs _ _ hlive hstate; exact ⟨hlive, hstate⟩
  | succ m ih =>
    intro g queue errors cd evs hnd hf hlive hstate
    cases queue with
    | nil => exact ⟨hlive, hstate⟩
    | cons a qs =>
      unfold propagateSymbolsUpLoop
      have hstep := upStep_errstate db g0 errors0 g a qs errors cd evs hf hlive hstate
      have hfr := frame_upStep db g a qs errors cd evs hnd
      exact ih _ _ _ _ _ (nodupKeys_of_frame hfr hnd) (hf.andThen hfr) hstep.1 hstep.2

theorem lookupKey_pruned_none (pe : List (NodeId × List Diag)) (g1 : AssetGraph)
    (n : NodeId) (h : g1.hasNode n = false) :
    lookupKey (pe.filter (fun kv => g1.hasNode kv.1)) n = none := by
  unfold lookupKey
  rw [Option.map_eq_none', List.find?_eq_none]
  intro kv hkv
  have hmem := (List.mem_filter.mp hkv).2
  simp only [Bool.not_eq_true]
  cases hbe : (kv.1 == n) with
  | false => rfl
  | true =>
    have : kv.1 = n := by simpa using hbe
    rw [this] at hmem
    rw [hmem] at h
    exact absurd h (by simp)

/-- **C9** (confirmed).  With a `previousErrors` map: (1) entries at nodes
no longer in the graph never appear in the result; (2) a node the up pass
never visited keeps exactly its entry of the pruned previous map; (3) a
visited asset's entry is replaced by the last visit's diagnostics —
stored when non-empty, deleted when empty.  `upEvents` instruments the
visitor invocations of the embedded up pass. -/
theorem propagateSymbols_previousErrors (db : Db) (g : AssetGraph)
    (cks : List ContentKey) (rps : List NodeId) (pe : List (NodeId × List Diag))
    (fuel : Nat) (hnd : NodupKeys g) :
    (∀ n : NodeId, g.hasNode n = false →
      lookupKey (propagateSymbols db g cks rps (some pe) fuel).errors n = none) ∧
    (∀ n : NodeId,
      (propagateSymbols db g cks rps (some pe) fuel).upEvents.filter (·.1 == n) = [] →
      lookupKey (propagateSymbols db g cks rps (some pe) fuel).errors n
        = lookupKey (pe.filter (fun kv => g.hasNode kv.1)) n) ∧
    (∀ (n : NodeId) (pr : NodeId × List Diag),
      ((propagateSymbols db g cks rps (some pe) fuel).upEvents.filter (·.1 == n)).getLast?
        = some pr →
      lookupKey (propagateSymbols db g cks rps (some pe) fuel).errors n
        = if pr.2.isEmpty then none else some pr.2) := by
  simp only [propagateSymbols, propagateSymbolsUp]
  generalize hCA : List.foldl (fun acc ck => addOnce acc (g.getNodeIdByContentKey ck)) [] cks = ca
  have hdown := frame_down db g ca rps fuel hnd
  generalize hg1 : (propagateSymbolsDown db g ca rps fuel).1 = g1 at hdown ⊢
  generalize hch : (propagateSymbolsDown db g ca rps fuel).2 = ch
  have hnd1 : NodupKeys g1 := nodupKeys_of_frame hdown hnd
  have hinit : ErrState (pe.filter (fun kv => g1.hasNode kv.1)) []
      (pe.filter (fun kv => g1.hasNode kv.1)) := fun n => rfl
  have hlive0 : EventsLive g1 [] := by
    intro pr hpr
    exact absurd hpr (List.not_mem_nil pr)
  have hloop := upLoop_errstate db g1 (pe.filter (fun kv => g1.hasNode kv.1)) fuel g1
    (ca.foldl addOnce (ch.reverse.foldl
      (fun acc id => (getDependencyResolution g1 id).foldl addOnce acc) []))
    (pe.filter (fun kv => g1.hasNode kv.1)) [] []
    hnd1 (frameRfl g1) hlive0 hinit
  generalize hr : propagateSymbolsUpLoop db fuel g1
    (ca.foldl addOnce (ch.reverse.foldl
      (fun acc id => (getDependencyResolution g1 id).foldl addOnce acc) []))
    (pe.filter (fun kv => g1.hasNode kv.1)) [] [] = r at hloop ⊢
  obtain ⟨hlive, hstate⟩ := hloop
  have hfeq : pe.filter (fun kv => g1.hasNode kv.1) = pe.filter (fun kv => g.hasNode kv.1) :=
    List.filter_congr (fun kv _ => by rw [hasNode_of_frame hdown])
  refine ⟨?_, ?_, ?_⟩
  · intro n hnode
    have hno_ev : r.2.2.2.filter (·.1 == n) = [] := by
      cases hev : r.2.2.2.filter (·.1 == n) with
      | nil => rfl
      | cons pr t =>
        have hprmem : pr ∈ r.2.2.2.filter (·.1 == n) := by
          rw [hev]
          exact List.mem_cons_self pr t
        have hpr1 : pr.1 = n := by
          have := (List.mem_filter.mp hprmem).2
          simpa using this
        have := hlive pr (List.mem_filter.mp hprmem).1
        rw [hpr1, hasNode_of_frame hdown] at this
        rw [hnode] at this
        exact absurd this (by simp)
    have := hstate n
    rw [hno_ev] at this
    simp only [List.getLast?_nil] at this
    rw [this]
    apply lookupKey_pruned_none
    rw [hasNode_of_frame hdown]
    exact hnode
  · intro n hnil
    have := hstate n
    rw [hnil] at this
    simp only [List.getLast?_nil] at this
    rw [this, hfeq]
  · intro n pr hlast
    have := hstate n
    rw [hlast] at this
    exact this

theorem propagateSymbols_previousErrors_witness :
    (NodupKeys c2graph ∧ c2graph.hasNode 9 = false) ∧
    lookupKey (propagateSymbols c2db c2graph [103] []
      (some [(9, [⟨1, 2, none⟩])]) 20).errors 9 = none :=
  ⟨⟨by decide, by decide⟩,
    (propagateSymbols_previousErrors c2db c2graph [103] [] [(9, [⟨1, 2, none⟩])] 20
      (by decide)).1 9 (by decide)⟩

end Parcel
